import Mathlib

/-!
Verification of the featherengine core: the MVCC transaction layer
(`src/concurrency/transaction.rs`) and the SST format with its bidirectional
iterator (`src/storage/kv/lsm_tree/sstable.rs`).

Bytes are modelled as `Nat` (with `< 256` side conditions where machine width
matters), byte strings as `List Nat`, fallible code as `Except Error`, and the
ordered KV store as an association list with explicit lexicographic filtering.
The repository modules that back this code but are absent from the sources
(`encoding.rs`, the block builder, bincode serialization) are modelled from the
spec and marked as such in their doc comments.
-/

/-- Error taxonomy of the engine (`src/error.rs` is external; variants are taken
from the spec's error handling design: `Value`, `Internal`, storage and
serialization failures). -/
inductive Error where
  | Value (msg : String)
  | Internal (msg : String)
  | Serialization
  | Storage
deriving DecidableEq

/-- Lexicographic strict order on byte strings, matching `Ord` on Rust byte
slices: element-wise comparison, a strict prefix is smaller. -/
def bytesLt : List Nat → List Nat → Bool
  | _, [] => false
  | [], _ :: _ => true
  | a :: as, b :: bs => decide (a < b) || (decide (a = b) && bytesLt as bs)

theorem bytesLt_nil_right (a : List Nat) : bytesLt a [] = false := by
  cases a <;> rfl

theorem bytesLt_cons (a b : Nat) (as bs : List Nat) :
    bytesLt (a :: as) (b :: bs) = (decide (a < b) || (decide (a = b) && bytesLt as bs)) := rfl

theorem bytesLt_irrefl (a : List Nat) : bytesLt a a = false := by
  induction a with
  | nil => rfl
  | cons x xs ih => simp [bytesLt, ih]

theorem bytesLt_trans : ∀ a b c : List Nat,
    bytesLt a b = true → bytesLt b c = true → bytesLt a c = true := by
  intro a
  induction a with
  | nil =>
    intro b c hab hbc
    cases b with
    | nil => simp [bytesLt] at hab
    | cons y ys =>
      cases c with
      | nil => simp [bytesLt_nil_right] at hbc
      | cons z zs => simp [bytesLt]
  | cons x xs ih =>
    intro b c hab hbc
    cases b with
    | nil => simp [bytesLt_nil_right] at hab
    | cons y ys =>
      cases c with
      | nil => simp [bytesLt_nil_right] at hbc
      | cons z zs =>
        simp only [bytesLt_cons, Bool.or_eq_true, Bool.and_eq_true,
          decide_eq_true_eq] at hab hbc ⊢
        rcases hab with h1 | ⟨h1, h1'⟩ <;> rcases hbc with h2 | ⟨h2, h2'⟩
        · exact Or.inl (Nat.lt_trans h1 h2)
        · exact Or.inl (h2 ▸ h1)
        · exact Or.inl (h1 ▸ h2)
        · exact Or.inr ⟨h1.trans h2, ih ys zs h1' h2'⟩

theorem bytesLt_asymm (a b : List Nat) (h : bytesLt a b = true) : bytesLt b a = false := by
  by_contra hc
  have hba : bytesLt b a = true := by
    cases hv : bytesLt b a
    · exact absurd hv hc
    · rfl
  have := bytesLt_trans a b a h hba
  rw [bytesLt_irrefl] at this
  exact Bool.false_ne_true this

theorem bytesLt_total (a b : List Nat) (hne : a ≠ b) :
    bytesLt a b = true ∨ bytesLt b a = true := by
  induction a generalizing b with
  | nil =>
    cases b with
    | nil => exact absurd rfl hne
    | cons y ys => left; simp [bytesLt]
  | cons x xs ih =>
    cases b with
    | nil => right; simp [bytesLt]
    | cons y ys =>
      rcases Nat.lt_trichotomy x y with h | h | h
      · left; simp [bytesLt_cons, h]
      · subst h
        have hne' : xs ≠ ys := fun he => hne (by rw [he])
        rcases ih ys hne' with h' | h'
        · left; simp [bytesLt_cons, h']
        · right; simp [bytesLt_cons, h']
      · right; simp [bytesLt_cons, h]

/-- Appending after equal-length prefixes compares the prefixes first and, when
they coincide, the suffixes. -/
theorem bytesLt_append (x y u v : List Nat) (hlen : x.length = y.length) :
    bytesLt (x ++ u) (y ++ v) = (bytesLt x y || (decide (x = y) && bytesLt u v)) := by
  induction x generalizing y with
  | nil =>
    cases y with
    | nil => simp [bytesLt]
    | cons b bs => simp at hlen
  | cons a as ih =>
    cases y with
    | nil => simp at hlen
    | cons b bs =>
      simp only [List.length_cons, Nat.succ.injEq] at hlen
      simp only [List.cons_append, bytesLt_cons, ih bs hlen]
      by_cases hab : a = b
      · subst hab
        by_cases hasbs : as = bs <;>
          simp [hasbs, Bool.or_assoc]
      · have : ¬ (a :: as = b :: bs) := fun h => hab (List.cons.injEq .. ▸ h).1
        simp [hab, this]

/- ### The `encoding` module

The repository's `src/encoding.rs` is referenced by `transaction.rs` but absent
from the sources; the functions below are modelled from the spec (§3.2):
integers are big-endian unsigned 64-bit, byte strings use the
escape-zero-byte / terminator encoding (`0x00` becomes `0x00 0xff`, terminated
by `0x00 0x00`), and decoding errors on truncated input or invalid escapes. -/

/-- Big-endian byte representation of `n % 256^w` on `w` bytes.
Modelled from the spec: `encoding.rs` is missing from the sources; §3.2 fixes
integer components as big-endian unsigned 64-bit. -/
def beBytes : Nat → Nat → List Nat
  | 0, _ => []
  | w + 1, n => n / 256 ^ w % 256 :: beBytes w n

/-- Modelled from the spec: big-endian `u64` encoding (`encode_u64`). -/
def encode_u64 (n : Nat) : List Nat := beBytes 8 n

/-- Big-endian value of a byte list. -/
def fromBe (l : List Nat) : Nat := l.foldl (fun acc b => acc * 256 + b) 0

/-- Modelled from the spec: the order-preserving length-delimited byte-string
encoding — each `0x00` is escaped as `0x00 0xff` and the string is terminated
by `0x00 0x00`. -/
def encode_bytes : List Nat → List Nat
  | [] => [0, 0]
  | b :: t => if b = 0 then 0 :: 255 :: encode_bytes t else b :: encode_bytes t

/-- Modelled from the spec: reads one byte, errors on empty input. -/
def take_byte : List Nat → Except Error (Nat × List Nat)
  | [] => .error (.Internal "Unexpected end of bytes")
  | b :: rest => .ok (b, rest)

/-- Modelled from the spec: reads 8 big-endian bytes as a `u64`. -/
def take_u64 (bs : List Nat) : Except Error (Nat × List Nat) :=
  if 8 ≤ bs.length then .ok (fromBe (bs.take 8), bs.drop 8)
  else .error (.Internal "Unable to decode u64: not enough bytes")

/-- Modelled from the spec: decodes an escaped, terminated byte string,
erroring on truncation or on an invalid escape sequence. -/
def take_bytes : List Nat → Except Error (List Nat × List Nat)
  | [] => .error (.Internal "Unexpected end of bytes")
  | b :: rest =>
    if b = 0 then
      match rest with
      | [] => .error (.Internal "Unexpected end of bytes")
      | c :: rest2 =>
        if c = 0 then .ok ([], rest2)
        else if c = 255 then
          (take_bytes rest2).map (fun p => (0 :: p.1, p.2))
        else .error (.Internal "Invalid escape sequence")
    else (take_bytes rest).map (fun p => (b :: p.1, p.2))

theorem beBytes_length (w n : Nat) : (beBytes w n).length = w := by
  induction w generalizing n with
  | zero => rfl
  | succ w ih => simp [beBytes, ih]

theorem foldl_be (l : List Nat) : ∀ acc : Nat,
    l.foldl (fun acc b => acc * 256 + b) acc = acc * 256 ^ l.length + fromBe l := by
  induction l with
  | nil => intro acc; simp [fromBe]
  | cons b t ih =>
    intro acc
    show List.foldl _ (acc * 256 + b) t = _
    rw [ih (acc * 256 + b)]
    show _ = acc * 256 ^ (t.length + 1) + fromBe (b :: t)
    have : fromBe (b :: t) = (0 * 256 + b) * 256 ^ t.length + fromBe t := ih (0 * 256 + b)
    rw [this]
    ring

theorem fromBe_lt (l : List Nat) (h : ∀ b ∈ l, b < 256) : fromBe l < 256 ^ l.length := by
  induction l with
  | nil => simp [fromBe]
  | cons b t ih =>
    have hb : b < 256 := h b (List.mem_cons_self b t)
    have ht : fromBe t < 256 ^ t.length := ih (fun x hx => h x (List.mem_cons_of_mem b hx))
    have : fromBe (b :: t) = b * 256 ^ t.length + fromBe t := by
      show List.foldl _ (0 * 256 + b) t = _
      rw [foldl_be]
      simp
    rw [this]
    calc b * 256 ^ t.length + fromBe t
        < b * 256 ^ t.length + 256 ^ t.length := by omega
      _ = (b + 1) * 256 ^ t.length := by ring
      _ ≤ 256 * 256 ^ t.length := by
          exact Nat.mul_le_mul_right _ (by omega)
      _ = 256 ^ (t.length + 1) := by ring

theorem fromBe_beBytes (w n : Nat) : fromBe (beBytes w n) = n % 256 ^ w := by
  suffices h : ∀ w n acc : Nat,
      (beBytes w n).foldl (fun a b => a * 256 + b) acc = acc * 256 ^ w + n % 256 ^ w by
    have := h w n 0
    simpa [fromBe] using this
  intro w
  induction w with
  | zero => intro n acc; simp [beBytes, fromBe, Nat.mod_one]
  | succ w ih =>
    intro n acc
    show List.foldl _ (acc * 256 + n / 256 ^ w % 256) (beBytes w n) = _
    rw [ih n (acc * 256 + n / 256 ^ w % 256)]
    have hsplit : n % (256 ^ w * 256) = n % 256 ^ w + 256 ^ w * (n / 256 ^ w % 256) :=
      Nat.mod_mul
    have hpow : (256 : Nat) ^ (w + 1) = 256 ^ w * 256 := by ring
    rw [hpow, hsplit]
    ring

theorem beBytes_mod (w n : Nat) : beBytes w (n % 256 ^ w) = beBytes w n := by
  induction w generalizing n with
  | zero => rfl
  | succ w ih =>
    show _ :: _ = _ :: _
    have hpow : (256 : Nat) ^ (w + 1) = 256 ^ w * 256 := by ring
    congr 1
    · rw [hpow, Nat.mod_mul_right_div_self]
      exact Nat.mod_mod_of_dvd _ dvd_rfl
    · have h1 : n % 256 ^ (w + 1) % 256 ^ w = n % 256 ^ w :=
        Nat.mod_mod_of_dvd n ⟨256, by ring⟩
      calc beBytes w (n % 256 ^ (w + 1))
          = beBytes w (n % 256 ^ (w + 1) % 256 ^ w) := (ih _).symm
        _ = beBytes w (n % 256 ^ w) := by rw [h1]
        _ = beBytes w n := ih n

theorem beBytes_lt_bound (w n : Nat) : ∀ b ∈ beBytes w n, b < 256 := by
  induction w generalizing n with
  | zero => intro b hb; simp [beBytes] at hb
  | succ w ih =>
    intro b hb
    simp only [beBytes, List.mem_cons] at hb
    rcases hb with h | h
    · subst h; exact Nat.mod_lt _ (by norm_num)
    · exact ih n b h

theorem beBytes_fromBe (l : List Nat) (h : ∀ b ∈ l, b < 256) :
    beBytes l.length (fromBe l) = l := by
  induction l with
  | nil => rfl
  | cons b t ih =>
    have hb : b < 256 := h b (List.mem_cons_self b t)
    have ht : ∀ x ∈ t, x < 256 := fun x hx => h x (List.mem_cons_of_mem b hx)
    have hval : fromBe (b :: t) = b * 256 ^ t.length + fromBe t := by
      show List.foldl _ (0 * 256 + b) t = _
      rw [foldl_be]; simp
    have htlt : fromBe t < 256 ^ t.length := fromBe_lt t ht
    have hE : 0 < 256 ^ t.length := Nat.pos_pow_of_pos _ (by norm_num)
    show _ :: _ = _ :: _
    congr 1
    · rw [hval, Nat.mul_comm b, Nat.mul_add_div hE, Nat.div_eq_of_lt htlt]
      simp [Nat.mod_eq_of_lt hb]
    · rw [hval, ← beBytes_mod, Nat.add_comm (b * 256 ^ t.length) (fromBe t),
        Nat.add_mul_mod_self_right, Nat.mod_eq_of_lt htlt]
      exact ih ht

theorem bytesLt_nil_cons (b : Nat) (bs : List Nat) : bytesLt [] (b :: bs) = true := rfl

theorem bytesLt_cons_same (a : Nat) (as bs : List Nat) :
    bytesLt (a :: as) (a :: bs) = bytesLt as bs := by
  simp [bytesLt_cons]

theorem encode_bytes_cons_zero (t : List Nat) :
    encode_bytes (0 :: t) = 0 :: 255 :: encode_bytes t := by
  simp [encode_bytes]

theorem encode_bytes_cons_pos (b : Nat) (t : List Nat) (h : b ≠ 0) :
    encode_bytes (b :: t) = b :: encode_bytes t := by
  simp [encode_bytes, h]

/-- Splitting a number at a power base compares like its (quotient, remainder)
pair, lexicographically. -/
theorem digit_split_lt (E a b : Nat) (hE : 0 < E) :
    a < b ↔ (a / E < b / E ∨ (a / E = b / E ∧ a % E < b % E)) := by
  have ha := Nat.div_add_mod a E
  have hb := Nat.div_add_mod b E
  have hma : a % E < E := Nat.mod_lt a hE
  have hmb : b % E < E := Nat.mod_lt b hE
  constructor
  · intro hab
    rcases Nat.lt_trichotomy (a / E) (b / E) with h | h | h
    · exact Or.inl h
    · refine Or.inr ⟨h, ?_⟩
      rw [h] at ha
      linarith
    · exfalso
      have hba : b < a := by
        calc b = E * (b / E) + b % E := hb.symm
          _ < E * (b / E) + E := Nat.add_lt_add_left hmb _
          _ = E * (b / E + 1) := by ring
          _ ≤ E * (a / E) := Nat.mul_le_mul_left E h
          _ ≤ a := Nat.mul_div_le a E
      omega
  · intro h
    rcases h with h | ⟨h, h'⟩
    · calc a = E * (a / E) + a % E := ha.symm
        _ < E * (a / E) + E := Nat.add_lt_add_left hma _
        _ = E * (a / E + 1) := by ring
        _ ≤ E * (b / E) := Nat.mul_le_mul_left E h
        _ ≤ b := Nat.mul_div_le b E
    · rw [h] at ha
      linarith

/-- Big-endian encodings of bounded numbers compare lexicographically like the
numbers themselves. -/
theorem beBytes_lt_iff (w : Nat) : ∀ a b : Nat, a < 256 ^ w → b < 256 ^ w →
    (bytesLt (beBytes w a) (beBytes w b) = true ↔ a < b) := by
  induction w with
  | zero =>
    intro a b ha hb
    simp [beBytes, bytesLt] at *
    omega
  | succ w ih =>
    intro a b ha hb
    have hE : 0 < 256 ^ w := Nat.pos_pow_of_pos _ (by norm_num)
    have hda : a / 256 ^ w < 256 := by
      rw [Nat.div_lt_iff_lt_mul hE]
      calc a < 256 ^ (w + 1) := ha
        _ = 256 * 256 ^ w := by ring
    have hdb : b / 256 ^ w < 256 := by
      rw [Nat.div_lt_iff_lt_mul hE]
      calc b < 256 ^ (w + 1) := hb
        _ = 256 * 256 ^ w := by ring
    have hha : a / 256 ^ w % 256 = a / 256 ^ w := Nat.mod_eq_of_lt hda
    have hhb : b / 256 ^ w % 256 = b / 256 ^ w := Nat.mod_eq_of_lt hdb
    have hta : beBytes w a = beBytes w (a % 256 ^ w) := (beBytes_mod w a).symm
    have htb : beBytes w b = beBytes w (b % 256 ^ w) := (beBytes_mod w b).symm
    show bytesLt (_ :: _) (_ :: _) = true ↔ _
    rw [bytesLt_cons, hha, hhb, hta, htb]
    have hmla : a % 256 ^ w < 256 ^ w := Nat.mod_lt _ hE
    have hmlb : b % 256 ^ w < 256 ^ w := Nat.mod_lt _ hE
    rw [digit_split_lt (256 ^ w) a b hE]
    simp only [Bool.or_eq_true, Bool.and_eq_true, decide_eq_true_eq]
    rw [ih _ _ hmla hmlb]

theorem beBytes_inj (w a b : Nat) (ha : a < 256 ^ w) (hb : b < 256 ^ w)
    (h : beBytes w a = beBytes w b) : a = b := by
  have h1 := fromBe_beBytes w a
  have h2 := fromBe_beBytes w b
  rw [h] at h1
  rw [h1, Nat.mod_eq_of_lt hb] at h2
  rw [← h2, Nat.mod_eq_of_lt ha]

/-- The escaped/terminated byte-string encoding, followed by arbitrary
suffixes, compares lexicographically like the pair (string, suffix). -/
theorem encode_bytes_lt (k : List Nat) : ∀ k' u v : List Nat,
    bytesLt (encode_bytes k ++ u) (encode_bytes k' ++ v)
      = (bytesLt k k' || (decide (k = k') && bytesLt u v)) := by
  induction k with
  | nil =>
    intro k' u v
    cases k' with
    | nil =>
      show bytesLt (0 :: 0 :: u) (0 :: 0 :: v) = _
      simp [bytesLt_cons, bytesLt_nil_right]
    | cons h' t' =>
      by_cases h0 : h' = 0
      · subst h0
        rw [encode_bytes_cons_zero]
        show bytesLt (0 :: 0 :: u) (0 :: 255 :: encode_bytes t' ++ v) = _
        simp [bytesLt_cons, bytesLt_nil_cons]
      · rw [encode_bytes_cons_pos h' t' h0]
        show bytesLt (0 :: 0 :: u) (h' :: encode_bytes t' ++ v) = _
        simp [bytesLt_cons, bytesLt_nil_cons, Nat.pos_of_ne_zero h0]
  | cons h t ih =>
    intro k' u v
    cases k' with
    | nil =>
      by_cases h0 : h = 0
      · subst h0
        rw [encode_bytes_cons_zero]
        show bytesLt (0 :: 255 :: encode_bytes t ++ u) (0 :: 0 :: v) = _
        simp [bytesLt_cons, bytesLt_nil_right]
      · rw [encode_bytes_cons_pos h t h0]
        show bytesLt (h :: encode_bytes t ++ u) (0 :: 0 :: v) = _
        simp [bytesLt_cons, bytesLt_nil_right, h0, Nat.not_lt_zero]
    | cons h' t' =>
      by_cases h0 : h = 0 <;> by_cases h0' : h' = 0
      · subst h0; subst h0'
        rw [encode_bytes_cons_zero, encode_bytes_cons_zero]
        show bytesLt (0 :: 255 :: (encode_bytes t ++ u)) (0 :: 255 :: (encode_bytes t' ++ v)) = _
        rw [bytesLt_cons_same, bytesLt_cons_same, ih t' u v]
        simp [bytesLt_cons_same, List.cons.injEq]
      · subst h0
        rw [encode_bytes_cons_zero, encode_bytes_cons_pos h' t' h0']
        show bytesLt (0 :: 255 :: encode_bytes t ++ u) (h' :: encode_bytes t' ++ v) = _
        simp [bytesLt_cons, Nat.pos_of_ne_zero h0']
      · subst h0'
        rw [encode_bytes_cons_pos h t h0, encode_bytes_cons_zero]
        show bytesLt (h :: encode_bytes t ++ u) (0 :: 255 :: encode_bytes t' ++ v) = _
        simp [bytesLt_cons, h0, Nat.not_lt_zero]
      · rw [encode_bytes_cons_pos h t h0, encode_bytes_cons_pos h' t' h0']
        show bytesLt (h :: (encode_bytes t ++ u)) (h' :: (encode_bytes t' ++ v)) = _
        rcases Nat.lt_trichotomy h h' with hlt | heq | hgt
        · simp [bytesLt_cons, hlt, Nat.ne_of_lt hlt]
        · subst heq
          rw [bytesLt_cons_same, bytesLt_cons_same, ih t' u v]
          simp [List.cons.injEq]
        · simp [bytesLt_cons, hgt, Nat.lt_asymm hgt, (Nat.ne_of_lt hgt).symm]

theorem take_bytes_encode (k : List Nat) : ∀ rest : List Nat,
    take_bytes (encode_bytes k ++ rest) = .ok (k, rest) := by
  induction k with
  | nil =>
    intro rest
    show take_bytes (0 :: 0 :: rest) = _
    simp [take_bytes]
  | cons b t ih =>
    intro rest
    by_cases h0 : b = 0
    · subst h0
      rw [encode_bytes_cons_zero]
      show take_bytes (0 :: 255 :: encode_bytes t ++ rest) = _
      simp [take_bytes, ih rest, Except.map]
    · rw [encode_bytes_cons_pos b t h0]
      show take_bytes (b :: (encode_bytes t ++ rest)) = _
      rw [take_bytes.eq_def]
      simp [h0, ih rest, Except.map]

theorem take_u64_encode (n : Nat) (hn : n < 2 ^ 64) (rest : List Nat) :
    take_u64 (encode_u64 n ++ rest) = .ok (n, rest) := by
  have hlen : (encode_u64 n).length = 8 := beBytes_length 8 n
  have h8 : 8 ≤ (encode_u64 n ++ rest).length := by
    simp [hlen]
  rw [take_u64, if_pos h8]
  rw [List.take_left' hlen, List.drop_left' hlen]
  rw [show encode_u64 n = beBytes 8 n from rfl, fromBe_beBytes]
  have : (2 : Nat) ^ 64 = 256 ^ 8 := by norm_num
  rw [Nat.mod_eq_of_lt (by omega)]

/- ### MVCC keys (`MvccKey` in `src/concurrency/transaction.rs`) -/

/-- MVCC keys; the encoding preserves the grouping and ordering of keys
(`transaction.rs`, `enum MvccKey`). `Cow` byte borrows become plain byte
lists. -/
inductive MvccKey where
  | TxnNext
  | TxnActive (id : Nat)
  | TxnSnapshot (version : Nat)
  | TxnUpdate (id : Nat) (key : List Nat)
  | Record (key : List Nat) (version : Nat)
  | Metadata (key : List Nat)
deriving DecidableEq

/-- Encodes a key into a byte vector (`MvccKey::encode`). -/
def MvccKey.encode : MvccKey → List Nat
  | .TxnNext => [0x01]
  | .TxnActive id => 0x02 :: encode_u64 id
  | .TxnSnapshot version => 0x03 :: encode_u64 version
  | .TxnUpdate id key => 0x04 :: (encode_u64 id ++ encode_bytes key)
  | .Metadata key => 0x05 :: encode_bytes key
  | .Record key version => 0xff :: (encode_bytes key ++ encode_u64 version)

/-- Dispatch on the tag byte of `MvccKey::decode`, returning the parsed key
and the bytes remaining after its fields. -/
def MvccKey.decodeBody (tag : Nat) (rest : List Nat) : Except Error (MvccKey × List Nat) :=
  if tag = 0x01 then .ok (.TxnNext, rest)
  else if tag = 0x02 then (take_u64 rest).map (fun p => (.TxnActive p.1, p.2))
  else if tag = 0x03 then (take_u64 rest).map (fun p => (.TxnSnapshot p.1, p.2))
  else if tag = 0x04 then
    match take_u64 rest with
    | .error e => .error e
    | .ok p => (take_bytes p.2).map (fun q => (.TxnUpdate p.1 q.1, q.2))
  else if tag = 0x05 then (take_bytes rest).map (fun p => (.Metadata p.1, p.2))
  else if tag = 0xff then
    match take_bytes rest with
    | .error e => .error e
    | .ok p => (take_u64 p.2).map (fun q => (.Record p.1 q.1, q.2))
  else .error (.Internal ("Unknown MVCC key prefix " ++ Nat.repr tag))

/-- Decodes a key from its byte representation (`MvccKey::decode`): read the
tag byte, parse the fields, and fail if any trailing byte remains. -/
def MvccKey.decode (bs : List Nat) : Except Error MvccKey :=
  match bs with
  | [] => .error (.Internal "Unexpected end of bytes")
  | tag :: rest =>
    match MvccKey.decodeBody tag rest with
    | .error e => .error e
    | .ok (key, rem) =>
      if rem.isEmpty then .ok key
      else .error (.Internal "Unexpected data remaining at end of key")

/-- All `u64` fields of the key fit the machine width (Rust fixes them as
`u64`; the Lean model uses `Nat`, so the bound is a side condition). -/
def MvccKey.u64Bounded : MvccKey → Bool
  | .TxnNext => true
  | .TxnActive id => decide (id < 2 ^ 64)
  | .TxnSnapshot version => decide (version < 2 ^ 64)
  | .TxnUpdate id _ => decide (id < 2 ^ 64)
  | .Record _ version => decide (version < 2 ^ 64)
  | .Metadata _ => true

/-- The tag byte of each variant (§3.2 of the spec). -/
def MvccKey.tagByte : MvccKey → Nat
  | .TxnNext => 0x01
  | .TxnActive _ => 0x02
  | .TxnSnapshot _ => 0x03
  | .TxnUpdate _ _ => 0x04
  | .Metadata _ => 0x05
  | .Record _ _ => 0xff

/-- Whether two keys are the same variant of `MvccKey`. -/
def MvccKey.sameVariant : MvccKey → MvccKey → Bool
  | .TxnNext, .TxnNext => true
  | .TxnActive _, .TxnActive _ => true
  | .TxnSnapshot _, .TxnSnapshot _ => true
  | .TxnUpdate _ _, .TxnUpdate _ _ => true
  | .Record _ _, .Record _ _ => true
  | .Metadata _, .Metadata _ => true
  | _, _ => false

/-- The logical order on keys of one variant: numeric order on `u64` fields,
lexicographic on byte-string fields, in declared field order. -/
def MvccKey.logicalLt : MvccKey → MvccKey → Bool
  | .TxnNext, .TxnNext => false
  | .TxnActive a, .TxnActive b => decide (a < b)
  | .TxnSnapshot a, .TxnSnapshot b => decide (a < b)
  | .TxnUpdate a k, .TxnUpdate b k' => decide (a < b) || (decide (a = b) && bytesLt k k')
  | .Record k a, .Record k' b => bytesLt k k' || (decide (k = k') && decide (a < b))
  | .Metadata k, .Metadata k' => bytesLt k k'
  | _, _ => false

theorem pow64_eq : (2 : Nat) ^ 64 = 256 ^ 8 := by norm_num

/-- Decoding an encoded key with arbitrary trailing bytes parses the key
exactly and leaves the trailing bytes as the remainder. -/
theorem decode_encode_append (k : MvccKey) (extra : List Nat)
    (hb : k.u64Bounded = true) :
    MvccKey.decode (k.encode ++ extra)
      = if extra.isEmpty then .ok k
        else .error (.Internal "Unexpected data remaining at end of key") := by
  cases k with
  | TxnNext =>
    show MvccKey.decode (1 :: extra) = _
    simp [MvccKey.decode, MvccKey.decodeBody]
  | TxnActive id =>
    have hid : id < 2 ^ 64 := by simpa [MvccKey.u64Bounded] using hb
    show MvccKey.decode (2 :: (encode_u64 id ++ extra)) = _
    simp [MvccKey.decode, MvccKey.decodeBody, take_u64_encode id hid, Except.map]
  | TxnSnapshot version =>
    have hid : version < 2 ^ 64 := by simpa [MvccKey.u64Bounded] using hb
    show MvccKey.decode (3 :: (encode_u64 version ++ extra)) = _
    simp [MvccKey.decode, MvccKey.decodeBody, take_u64_encode version hid, Except.map]
  | TxnUpdate id key =>
    have hid : id < 2 ^ 64 := by simpa [MvccKey.u64Bounded] using hb
    show MvccKey.decode (4 :: ((encode_u64 id ++ encode_bytes key) ++ extra)) = _
    rw [List.append_assoc]
    simp [MvccKey.decode, MvccKey.decodeBody, take_u64_encode id hid,
      take_bytes_encode, Except.map]
  | Metadata key =>
    show MvccKey.decode (5 :: (encode_bytes key ++ extra)) = _
    simp [MvccKey.decode, MvccKey.decodeBody, take_bytes_encode, Except.map]
  | Record key version =>
    have hid : version < 2 ^ 64 := by simpa [MvccKey.u64Bounded] using hb
    show MvccKey.decode (255 :: ((encode_bytes key ++ encode_u64 version) ++ extra)) = _
    rw [List.append_assoc]
    simp [MvccKey.decode, MvccKey.decodeBody, take_bytes_encode,
      take_u64_encode version hid, Except.map]

theorem decode_encode (k : MvccKey) (hb : k.u64Bounded = true) :
    MvccKey.decode k.encode = .ok k := by
  have h := decode_encode_append k [] hb
  simpa using h

/-- C5. For every `MvccKey` value (with `u64` fields in machine range),
`decode (encode k)` succeeds and returns `k`; `decode` fails with an
`Internal` error on any input whose first byte is not one of the six known
tags; and on any valid encoding followed by at least one trailing byte it
fails with the "Unexpected data remaining at end of key" `Internal` error. -/
theorem c5_key_codec_roundtrip :
    (∀ k : MvccKey, k.u64Bounded = true → MvccKey.decode k.encode = .ok k)
    ∧ (∀ (b : Nat) (rest : List Nat), b ≠ 0x01 → b ≠ 0x02 → b ≠ 0x03 → b ≠ 0x04 →
        b ≠ 0x05 → b ≠ 0xff → ∃ msg, MvccKey.decode (b :: rest) = .error (.Internal msg))
    ∧ (∀ (k : MvccKey) (extra : List Nat), k.u64Bounded = true → extra ≠ [] →
        MvccKey.decode (k.encode ++ extra)
          = .error (.Internal "Unexpected data remaining at end of key")) := by
  refine ⟨decode_encode, ?_, ?_⟩
  · intro b rest h1 h2 h3 h4 h5 hff
    refine ⟨"Unknown MVCC key prefix " ++ Nat.repr b, ?_⟩
    simp [MvccKey.decode, MvccKey.decodeBody, h1, h2, h3, h4, h5, hff]
  · intro k extra hb hne
    rw [decode_encode_append k extra hb]
    simp [hne]

theorem c5_key_codec_roundtrip_witness :
    ((MvccKey.TxnUpdate 5 [0, 1]).u64Bounded = true
      ∧ MvccKey.decode (MvccKey.TxnUpdate 5 [0, 1]).encode = .ok (MvccKey.TxnUpdate 5 [0, 1]))
    ∧ ((6 : Nat) ≠ 0x01
      ∧ ∃ msg, MvccKey.decode [6, 9] = .error (.Internal msg))
    ∧ (([7] : List Nat) ≠ []
      ∧ MvccKey.decode ((MvccKey.TxnNext).encode ++ [7])
          = .error (.Internal "Unexpected data remaining at end of key")) :=
  ⟨⟨by decide, c5_key_codec_roundtrip.1 _ (by decide)⟩,
   ⟨by decide, c5_key_codec_roundtrip.2.1 6 [9] (by decide) (by decide) (by decide)
      (by decide) (by decide) (by decide)⟩,
   ⟨by decide, c5_key_codec_roundtrip.2.2 _ [7] (by decide) (by decide)⟩⟩

theorem encode_u64_lt_iff (a b : Nat) (ha : a < 2 ^ 64) (hb : b < 2 ^ 64) :
    (bytesLt (encode_u64 a) (encode_u64 b) = true ↔ a < b) :=
  beBytes_lt_iff 8 a b (pow64_eq ▸ ha) (pow64_eq ▸ hb)

theorem encode_u64_eq_iff (a b : Nat) (ha : a < 2 ^ 64) (hb : b < 2 ^ 64) :
    (encode_u64 a = encode_u64 b ↔ a = b) := by
  constructor
  · exact fun h => beBytes_inj 8 a b (pow64_eq ▸ ha) (pow64_eq ▸ hb) h
  · intro h; rw [h]

theorem encode_bytes_lt_plain (k k' : List Nat) :
    bytesLt (encode_bytes k) (encode_bytes k') = bytesLt k k' := by
  have h := encode_bytes_lt k k' [] []
  simpa [bytesLt_nil_right] using h

theorem encode_bytes_inj (k k' : List Nat) (h : encode_bytes k = encode_bytes k') :
    k = k' := by
  by_contra hne
  rcases bytesLt_total k k' hne with hlt | hlt
  · have := encode_bytes_lt_plain k k'
    rw [h, bytesLt_irrefl, hlt] at this
    exact Bool.false_ne_true this
  · have := encode_bytes_lt_plain k' k
    rw [h, bytesLt_irrefl, hlt] at this
    exact Bool.false_ne_true this

/-- C6. The MVCC key encoding is order-preserving within each tag: for keys of
the same variant with `u64` fields in machine range, the logical order
(numeric on `u64` fields, lexicographic on byte strings, in declared field
order) holds iff the encodings compare lexicographically; and every encoding
begins with the variant's tag byte, so each tag's keys group contiguously. -/
theorem c6_key_codec_order_preserving :
    (∀ a b : MvccKey, a.sameVariant b = true → a.u64Bounded = true → b.u64Bounded = true →
      (MvccKey.logicalLt a b = true ↔ bytesLt a.encode b.encode = true))
    ∧ (∀ k : MvccKey, k.encode.head? = some k.tagByte) := by
  constructor
  · intro a b hsv ha hb
    cases a with
    | TxnNext =>
      cases b <;> simp [MvccKey.sameVariant] at hsv
      show MvccKey.logicalLt .TxnNext .TxnNext = true ↔ bytesLt [1] [1] = true
      simp [MvccKey.logicalLt, bytesLt_irrefl]
    | TxnActive ia =>
      cases b <;> simp [MvccKey.sameVariant] at hsv
      case TxnActive ib =>
      have ha' : ia < 2 ^ 64 := by simpa [MvccKey.u64Bounded] using ha
      have hb' : ib < 2 ^ 64 := by simpa [MvccKey.u64Bounded] using hb
      show decide (ia < ib) = true ↔ bytesLt (2 :: encode_u64 ia) (2 :: encode_u64 ib) = true
      rw [bytesLt_cons_same, encode_u64_lt_iff ia ib ha' hb']
      simp
    | TxnSnapshot ia =>
      cases b <;> simp [MvccKey.sameVariant] at hsv
      case TxnSnapshot ib =>
      have ha' : ia < 2 ^ 64 := by simpa [MvccKey.u64Bounded] using ha
      have hb' : ib < 2 ^ 64 := by simpa [MvccKey.u64Bounded] using hb
      show decide (ia < ib) = true ↔ bytesLt (3 :: encode_u64 ia) (3 :: encode_u64 ib) = true
      rw [bytesLt_cons_same, encode_u64_lt_iff ia ib ha' hb']
      simp
    | TxnUpdate ia ka =>
      cases b <;> simp [MvccKey.sameVariant] at hsv
      case TxnUpdate ib kb =>
      have ha' : ia < 2 ^ 64 := by simpa [MvccKey.u64Bounded] using ha
      have hb' : ib < 2 ^ 64 := by simpa [MvccKey.u64Bounded] using hb
      show (decide (ia < ib) || (decide (ia = ib) && bytesLt ka kb)) = true
        ↔ bytesLt (4 :: (encode_u64 ia ++ encode_bytes ka))
            (4 :: (encode_u64 ib ++ encode_bytes kb)) = true
      have hlen : (encode_u64 ia).length = (encode_u64 ib).length := by
        simp [encode_u64, beBytes_length]
      rw [bytesLt_cons_same, bytesLt_append _ _ _ _ hlen]
      simp only [Bool.or_eq_true, Bool.and_eq_true, decide_eq_true_eq]
      rw [encode_u64_lt_iff ia ib ha' hb', encode_u64_eq_iff ia ib ha' hb',
        encode_bytes_lt_plain ka kb]
    | Record ka ia =>
      cases b <;> simp [MvccKey.sameVariant] at hsv
      case Record kb ib =>
      have ha' : ia < 2 ^ 64 := by simpa [MvccKey.u64Bounded] using ha
      have hb' : ib < 2 ^ 64 := by simpa [MvccKey.u64Bounded] using hb
      show (bytesLt ka kb || (decide (ka = kb) && decide (ia < ib))) = true
        ↔ bytesLt (255 :: (encode_bytes ka ++ encode_u64 ia))
            (255 :: (encode_bytes kb ++ encode_u64 ib)) = true
      rw [bytesLt_cons_same, encode_bytes_lt ka kb (encode_u64 ia) (encode_u64 ib)]
      simp only [Bool.or_eq_true, Bool.and_eq_true, decide_eq_true_eq]
      rw [encode_u64_lt_iff ia ib ha' hb']
    | Metadata ka =>
      cases b <;> simp [MvccKey.sameVariant] at hsv
      case Metadata kb =>
      show bytesLt ka kb = true
        ↔ bytesLt (5 :: encode_bytes ka) (5 :: encode_bytes kb) = true
      rw [bytesLt_cons_same, encode_bytes_lt_plain ka kb]
  · intro k
    cases k <;> rfl

theorem c6_key_codec_order_preserving_witness :
    ((MvccKey.Record [1] 3).sameVariant (MvccKey.Record [1, 0] 2) = true
      ∧ (MvccKey.Record [1] 3).u64Bounded = true
      ∧ (MvccKey.Record [1, 0] 2).u64Bounded = true
      ∧ (MvccKey.logicalLt (MvccKey.Record [1] 3) (MvccKey.Record [1, 0] 2) = true
          ↔ bytesLt (MvccKey.Record [1] 3).encode (MvccKey.Record [1, 0] 2).encode = true))
    ∧ (MvccKey.TxnActive 9).encode.head? = some (MvccKey.TxnActive 9).tagByte :=
  ⟨⟨by decide, by decide, by decide,
    c6_key_codec_order_preserving.1 _ _ (by decide) (by decide) (by decide)⟩,
   c6_key_codec_order_preserving.2 (MvccKey.TxnActive 9)⟩

/- ### The ordered KV store and MVCC values -/

/-- An MVCC transaction mode (`enum Mode`). -/
inductive Mode where
  | ReadWrite
  | ReadOnly
  | Snapshot (version : Nat)
deriving DecidableEq

/-- Checks whether the transaction mode can mutate data (`Mode::allows_write`). -/
def Mode.allows_write : Mode → Bool
  | .ReadWrite => true
  | _ => false

/-- Values stored by the MVCC layer. Modelled from the spec: §6 only requires
the metadata value encoding (bincode in the source, which is external) to be a
stable round-tripping encoding of `u64`, `Mode` and `set<u64>`, so the model
stores the typed values directly and deserialization checks the type. -/
inductive MvccValue where
  | vU64 (n : Nat)
  | vMode (m : Mode)
  | vSet (ids : List Nat)
deriving DecidableEq

/-- The ordered byte-keyed store (the `KvStore` trait object), as an
association list; `scan` filters by the lexicographic key order. -/
abbrev KvStore := List (List Nat × MvccValue)

/-- Point lookup (`KvStore::get`). -/
def KvStore.get (s : KvStore) (k : List Nat) : Option MvccValue :=
  (s.find? (fun e => e.1 == k)).map (fun e => e.2)

/-- Point write (`KvStore::set`), keeping keys sorted and unique. -/
def KvStore.set : KvStore → List Nat → MvccValue → KvStore
  | [], k, v => [(k, v)]
  | (k', v') :: rest, k, v =>
    if k = k' then (k, v) :: rest
    else if bytesLt k k' = true then (k, v) :: (k', v') :: rest
    else (k', v') :: KvStore.set rest k v

/-- Point delete (`KvStore::delete`). -/
def KvStore.delete (s : KvStore) (k : List Nat) : KvStore :=
  s.filter (fun e => !(e.1 == k))

/-- Range scan over the half-open key range `[lo, hi)` (`KvStore::scan`). -/
def KvStore.scan (s : KvStore) (lo hi : List Nat) : KvStore :=
  s.filter (fun e => !bytesLt e.1 lo && bytesLt e.1 hi)

theorem KvStore.get_set_self (s : KvStore) (k : List Nat) (v : MvccValue) :
    (s.set k v).get k = some v := by
  induction s with
  | nil => simp [KvStore.set, KvStore.get, List.find?]
  | cons e rest ih =>
    obtain ⟨k', v'⟩ := e
    by_cases h1 : k = k'
    · subst h1
      simp [KvStore.set, KvStore.get, List.find?]
    · by_cases h2 : bytesLt k k' = true
      · simp [KvStore.set, h1, h2, KvStore.get, List.find?]
      · simp only [KvStore.set, if_neg h1, if_neg h2]
        simp only [KvStore.get, List.find?] at ih ⊢
        have : (k' == k) = false := by
          simp [beq_iff_eq]
          exact fun he => h1 he.symm
        simp [this, ih]

theorem KvStore.get_set_ne (s : KvStore) (k k2 : List Nat) (v : MvccValue)
    (h : k2 ≠ k) : (s.set k v).get k2 = s.get k2 := by
  have hkk2 : (k == k2) = false := by
    simp only [beq_eq_false_iff_ne, ne_eq]
    exact fun he => h he.symm
  induction s with
  | nil => simp [KvStore.set, KvStore.get, List.find?, hkk2]
  | cons e rest ih =>
    obtain ⟨k', v'⟩ := e
    by_cases h1 : k = k'
    · subst h1
      simp [KvStore.set, KvStore.get, List.find?, hkk2]
    · by_cases h2 : bytesLt k k' = true
      · simp [KvStore.set, h1, h2, KvStore.get, List.find?, hkk2]
      · simp only [KvStore.set, if_neg h1, if_neg h2]
        simp only [KvStore.get, List.find?] at ih ⊢
        cases hy : (k' == k2) with
        | true => simp [hy]
        | false => simp only [hy]; exact ih

theorem KvStore.get_delete_self (s : KvStore) (k : List Nat) :
    (s.delete k).get k = none := by
  induction s with
  | nil => simp [KvStore.delete, KvStore.get]
  | cons e rest ih =>
    obtain ⟨k', v'⟩ := e
    by_cases h : k' = k
    · subst h
      simp only [KvStore.delete, List.filter, beq_self_eq_true, Bool.not_true] at ih ⊢
      exact ih
    · have hne : (k' == k) = false := by simp [beq_iff_eq, h]
      simp only [KvStore.delete, List.filter, hne, Bool.not_false] at ih ⊢
      simp only [KvStore.get, List.find?, hne] at ih ⊢
      exact ih

theorem KvStore.get_delete_ne (s : KvStore) (k k2 : List Nat) (h : k2 ≠ k) :
    (s.delete k).get k2 = s.get k2 := by
  induction s with
  | nil => simp [KvStore.delete, KvStore.get]
  | cons e rest ih =>
    obtain ⟨k', v'⟩ := e
    by_cases hk : k' = k
    · subst hk
      have hne : (k' == k2) = false := by
        simp [beq_iff_eq]
        exact fun he => h he.symm
      simp only [KvStore.delete, List.filter, beq_self_eq_true, Bool.not_true] at ih ⊢
      simp only [KvStore.get, List.find?, hne]
      exact ih
    · have hne : (k' == k) = false := by simp [beq_iff_eq, hk]
      simp only [KvStore.delete, List.filter, hne, Bool.not_false] at ih ⊢
      by_cases h3 : k' = k2
      · subst h3
        simp [KvStore.get, List.find?]
      · have hne2 : (k' == k2) = false := by simp [beq_iff_eq, h3]
        simp only [KvStore.get, List.find?, hne2] at ih ⊢
        exact ih

theorem KvStore.mem_scan (s : KvStore) (lo hi : List Nat) (e : List Nat × MvccValue) :
    e ∈ s.scan lo hi ↔ e ∈ s ∧ bytesLt e.1 lo = false ∧ bytesLt e.1 hi = true := by
  simp [KvStore.scan, List.mem_filter, Bool.and_eq_true, Bool.not_eq_true']

theorem KvStore.get_isSome_iff (s : KvStore) (k : List Nat) :
    (s.get k).isSome = true ↔ ∃ v, (k, v) ∈ s := by
  simp only [KvStore.get]
  cases hf : s.find? (fun e => e.1 == k) with
  | none =>
    simp only [Option.map_none', Option.isSome_none]
    rw [show (false = true ↔ ∃ v, (k, v) ∈ s) = (False ↔ ∃ v, (k, v) ∈ s) by simp]
    rw [false_iff]
    rintro ⟨v, hv⟩
    have := List.find?_eq_none.mp hf (k, v) hv
    simp at this
  | some e =>
    simp only [Option.map_some', Option.isSome_some, true_iff]
    have hp := List.find?_some hf
    obtain ⟨ek, ev⟩ := e
    simp only [beq_iff_eq] at hp
    subst hp
    exact ⟨ev, List.mem_of_find?_eq_some hf⟩

theorem KvStore.mem_set (s : KvStore) (k : List Nat) (v : MvccValue)
    (e : List Nat × MvccValue) (he : e ∈ s.set k v) : e = (k, v) ∨ e ∈ s := by
  induction s with
  | nil => simpa [KvStore.set] using he
  | cons e0 rest ih =>
    obtain ⟨k', v'⟩ := e0
    by_cases h1 : k = k'
    · subst h1
      simp only [KvStore.set, if_pos rfl] at he
      rcases List.mem_cons.mp he with h | h
      · exact Or.inl h
      · exact Or.inr (List.mem_cons_of_mem _ h)
    · by_cases h2 : bytesLt k k' = true
      · simp only [KvStore.set, if_neg h1, if_pos h2] at he
        rcases List.mem_cons.mp he with h | h
        · exact Or.inl h
        · exact Or.inr h
      · simp only [KvStore.set, if_neg h1, if_neg h2] at he
        rcases List.mem_cons.mp he with h | h
        · exact Or.inr (h ▸ List.mem_cons_self _ _)
        · rcases ih h with h' | h'
          · exact Or.inl h'
          · exact Or.inr (List.mem_cons_of_mem _ h')

theorem KvStore.mem_delete (s : KvStore) (k : List Nat) (e : List Nat × MvccValue)
    (he : e ∈ s.delete k) : e ∈ s :=
  List.mem_of_mem_filter he

theorem KvStore.get_eq_some_mem (s : KvStore) (k : List Nat) (v : MvccValue)
    (h : s.get k = some v) : (k, v) ∈ s := by
  simp only [KvStore.get] at h
  obtain ⟨e, he, hev⟩ := Option.map_eq_some'.mp h
  have hp := List.find?_some he
  obtain ⟨ek, ev⟩ := e
  simp only [beq_iff_eq] at hp
  subst hp
  simp only at hev
  subst hev
  exact List.mem_of_find?_eq_some he

/- ### Snapshots and transactions (`src/concurrency/transaction.rs`) -/

/-- A versioned snapshot: the transaction IDs active at the start of the
transaction, which are invisible to it (`struct Snapshot`). The Rust
`HashSet<u64>` is modelled as the list of collected ids. -/
structure Snapshot where
  version : Nat
  invisible : List Nat
deriving DecidableEq

/-- The scan loop of `Snapshot::take`: decode every key in the scanned range,
collect `TxnActive` ids, and error on any other key. -/
def collectActive : KvStore → Except Error (List Nat)
  | [] => .ok []
  | (k, _) :: rest =>
    match MvccKey.decode k with
    | .ok (.TxnActive id) => (collectActive rest).map (fun ids => id :: ids)
    | .ok _ => .error (.Internal "Expected TxnActive, got another key")
    | .error e => .error e

/-- Takes a new snapshot at `version`, scanning `TxnActive(0)..TxnActive(version)`
and persisting the invisible set under `TxnSnapshot(version)` (`Snapshot::take`). -/
def Snapshot.take (s : KvStore) (version : Nat) : Except Error (Snapshot × KvStore) :=
  match collectActive
      (s.scan (MvccKey.TxnActive 0).encode (MvccKey.TxnActive version).encode) with
  | .error e => .error e
  | .ok ids =>
    .ok ({ version := version, invisible := ids },
      s.set (MvccKey.TxnSnapshot version).encode (.vSet ids))

/-- Restores the snapshot persisted under `TxnSnapshot(version)`
(`Snapshot::restore`). -/
def Snapshot.restore (s : KvStore) (version : Nat) : Except Error Snapshot :=
  match s.get (MvccKey.TxnSnapshot version).encode with
  | some (.vSet ids) => .ok { version := version, invisible := ids }
  | some _ => .error .Serialization
  | none => .error (.Value ("Snapshot not found for version " ++ Nat.repr version))

/-- An MVCC transaction (`struct Transaction`); the shared store handle is
passed explicitly instead. -/
structure Transaction where
  id : Nat
  mode : Mode
  snapshot : Snapshot
deriving DecidableEq

/-- Begins a new transaction in the given mode (`Transaction::begin`):
allocate the id from `TxnNext` (default 1), bump `TxnNext`, write the
`TxnActive` marker, always take a snapshot, and for `Snapshot` mode replace it
with the restored one. -/
def Transaction.begin (s : KvStore) (mode : Mode) : Except Error (Transaction × KvStore) :=
  match
    (match s.get MvccKey.TxnNext.encode with
     | some (.vU64 n) => Except.ok n
     | some _ => Except.error Error.Serialization
     | none => Except.ok 1 : Except Error Nat) with
  | .error e => .error e
  | .ok id =>
    let s1 := (s.set MvccKey.TxnNext.encode (.vU64 (id + 1))).set
      (MvccKey.TxnActive id).encode (.vMode mode)
    match Snapshot.take s1 id with
    | .error e => .error e
    | .ok (snap, s2) =>
      match mode with
      | .Snapshot version =>
        (Snapshot.restore s2 version).map
          (fun snap2 => ({ id := id, mode := mode, snapshot := snap2 }, s2))
      | _ => .ok ({ id := id, mode := mode, snapshot := snap }, s2)

/-- Resumes an active transaction with the given id (`Transaction::resume`). -/
def Transaction.resume (s : KvStore) (id : Nat) : Except Error Transaction :=
  match s.get (MvccKey.TxnActive id).encode with
  | none => .error (.Value ("No active transaction " ++ Nat.repr id))
  | some (.vMode mode) =>
    match
      (match mode with
       | .Snapshot version => Snapshot.restore s version
       | _ => Snapshot.restore s id) with
    | .error e => .error e
    | .ok snapshot => .ok { id := id, mode := mode, snapshot := snapshot }
  | some _ => .error .Serialization

/-- Commits the transaction by removing it from the active set
(`Transaction::commit`); the flush is a no-op in the model since the store is
the persistent state. -/
def Transaction.commit (s : KvStore) (t : Transaction) : KvStore :=
  s.delete (MvccKey.TxnActive t.id).encode

/-- Runs `Transaction::begin` once per mode, threading the store and
collecting the returned ids. -/
def beginSeq : KvStore → List Mode → Except Error (List Nat × KvStore)
  | s, [] => .ok ([], s)
  | s, m :: ms =>
    match Transaction.begin s m with
    | .error e => .error e
    | .ok (t, s1) => (beginSeq s1 ms).map (fun p => (t.id :: p.1, p.2))

theorem encode_headByte (k : MvccKey) : k.encode.head? = some k.tagByte := by
  cases k <;> rfl

theorem encode_ne_of_tagByte {k1 k2 : MvccKey} (h : k1.tagByte ≠ k2.tagByte) :
    k1.encode ≠ k2.encode := by
  intro he
  have hs : some k1.tagByte = some k2.tagByte := by
    rw [← encode_headByte, he, encode_headByte]
  exact h (Option.some.inj hs)

/-- Whether the mode is the `Snapshot { version }` variant. -/
def Mode.isSnapshotMode : Mode → Bool
  | .Snapshot _ => true
  | _ => false

/-- The id `Transaction::begin` would allocate from the store: the decoded
`TxnNext` value, defaulting to 1 when the key is absent, or `none` when the
stored value does not deserialize as a `u64`. -/
def nextIdOf (s : KvStore) : Option Nat :=
  match s.get MvccKey.TxnNext.encode with
  | none => some 1
  | some (.vU64 n) => some n
  | some _ => none

/-- What must have happened on a successful `Snapshot::take`. -/
theorem take_ok (s : KvStore) (version : Nat) (snap : Snapshot) (s' : KvStore)
    (h : Snapshot.take s version = .ok (snap, s')) :
    snap.version = version ∧
    collectActive (s.scan (MvccKey.TxnActive 0).encode (MvccKey.TxnActive version).encode)
      = .ok snap.invisible ∧
    s' = s.set (MvccKey.TxnSnapshot version).encode (.vSet snap.invisible) := by
  unfold Snapshot.take at h
  cases hc : collectActive
      (s.scan (MvccKey.TxnActive 0).encode (MvccKey.TxnActive version).encode) with
  | error e => rw [hc] at h; exact absurd h (by simp)
  | ok ids =>
    rw [hc] at h
    simp only [Except.ok.injEq, Prod.mk.injEq] at h
    obtain ⟨hsnap, hs'⟩ := h
    subst hsnap
    refine ⟨rfl, rfl, hs'.symm⟩

/-- What must have happened on a successful `Transaction::begin`. -/
theorem begin_spec (s : KvStore) (mode : Mode) (t : Transaction) (s' : KvStore)
    (h : Transaction.begin s mode = .ok (t, s')) :
    ∃ snap0 : Snapshot,
      t.mode = mode ∧
      nextIdOf s = some t.id ∧
      Snapshot.take ((s.set MvccKey.TxnNext.encode (.vU64 (t.id + 1))).set
          (MvccKey.TxnActive t.id).encode (.vMode mode)) t.id = .ok (snap0, s') ∧
      (∀ version, mode = .Snapshot version → Snapshot.restore s' version = .ok t.snapshot) ∧
      (mode.isSnapshotMode = false → t.snapshot = snap0) := by
  unfold Transaction.begin at h
  cases hg : s.get MvccKey.TxnNext.encode with
  | none =>
    rw [hg] at h
    simp only at h
    cases htake : Snapshot.take ((s.set MvccKey.TxnNext.encode (.vU64 (1 + 1))).set
        (MvccKey.TxnActive 1).encode (.vMode mode)) 1 with
    | error e => rw [htake] at h; exact absurd h (by simp)
    | ok p =>
      obtain ⟨snap, s2⟩ := p
      rw [htake] at h
      cases mode with
      | Snapshot version =>
        simp only at h
        cases hr : Snapshot.restore s2 version with
        | error e => rw [hr] at h; exact absurd h (by simp [Except.map])
        | ok snap2 =>
          rw [hr] at h
          simp only [Except.map, Except.ok.injEq, Prod.mk.injEq] at h
          obtain ⟨ht, hs2⟩ := h
          subst hs2
          subst ht
          refine ⟨snap, rfl, by simp [nextIdOf, hg], htake, ?_, ?_⟩
          · intro version2 hv
            cases hv
            exact hr
          · intro hfalse
            simp [Mode.isSnapshotMode] at hfalse
      | ReadWrite =>
        simp only [Except.ok.injEq, Prod.mk.injEq] at h
        obtain ⟨ht, hs2⟩ := h
        subst hs2
        subst ht
        exact ⟨snap, rfl, by simp [nextIdOf, hg], htake,
          fun version hv => absurd hv (by simp), fun _ => rfl⟩
      | ReadOnly =>
        simp only [Except.ok.injEq, Prod.mk.injEq] at h
        obtain ⟨ht, hs2⟩ := h
        subst hs2
        subst ht
        exact ⟨snap, rfl, by simp [nextIdOf, hg], htake,
          fun version hv => absurd hv (by simp), fun _ => rfl⟩
  | some v =>
    cases v with
    | vU64 n =>
      rw [hg] at h
      simp only at h
      cases htake : Snapshot.take ((s.set MvccKey.TxnNext.encode (.vU64 (n + 1))).set
          (MvccKey.TxnActive n).encode (.vMode mode)) n with
      | error e => rw [htake] at h; exact absurd h (by simp)
      | ok p =>
        obtain ⟨snap, s2⟩ := p
        rw [htake] at h
        cases mode with
        | Snapshot version =>
          simp only at h
          cases hr : Snapshot.restore s2 version with
          | error e => rw [hr] at h; exact absurd h (by simp [Except.map])
          | ok snap2 =>
            rw [hr] at h
            simp only [Except.map, Except.ok.injEq, Prod.mk.injEq] at h
            obtain ⟨ht, hs2⟩ := h
            subst hs2
            subst ht
            refine ⟨snap, rfl, by simp [nextIdOf, hg], htake, ?_, ?_⟩
            · intro version2 hv
              cases hv
              exact hr
            · intro hfalse
              simp [Mode.isSnapshotMode] at hfalse
        | ReadWrite =>
          simp only [Except.ok.injEq, Prod.mk.injEq] at h
          obtain ⟨ht, hs2⟩ := h
          subst hs2
          subst ht
          exact ⟨snap, rfl, by simp [nextIdOf, hg], htake,
            fun version hv => absurd hv (by simp), fun _ => rfl⟩
        | ReadOnly =>
          simp only [Except.ok.injEq, Prod.mk.injEq] at h
          obtain ⟨ht, hs2⟩ := h
          subst hs2
          subst ht
          exact ⟨snap, rfl, by simp [nextIdOf, hg], htake,
            fun version hv => absurd hv (by simp), fun _ => rfl⟩
    | vMode m => rw [hg] at h; exact absurd h (by simp)
    | vSet ids => rw [hg] at h; exact absurd h (by simp)

/-- After a successful `begin`, the final store holds the bumped `TxnNext`
counter and the transaction's `TxnActive` marker with its serialized mode. -/
theorem begin_writes (s : KvStore) (mode : Mode) (t : Transaction) (s' : KvStore)
    (h : Transaction.begin s mode = .ok (t, s')) :
    s'.get MvccKey.TxnNext.encode = some (.vU64 (t.id + 1)) ∧
    s'.get (MvccKey.TxnActive t.id).encode = some (.vMode mode) := by
  obtain ⟨snap0, _, _, htake, _, _⟩ := begin_spec s mode t s' h
  obtain ⟨_, _, hs'⟩ := take_ok _ _ _ _ htake
  subst hs'
  constructor
  · rw [KvStore.get_set_ne _ _ _ _ (encode_ne_of_tagByte (by simp [MvccKey.tagByte]))]
    rw [KvStore.get_set_ne _ _ _ _ (encode_ne_of_tagByte (by simp [MvccKey.tagByte]))]
    exact KvStore.get_set_self _ _ _
  · rw [KvStore.get_set_ne _ _ _ _ (encode_ne_of_tagByte (by simp [MvccKey.tagByte]))]
    exact KvStore.get_set_self _ _ _

theorem begin_id_eq (s : KvStore) (mode : Mode) (t : Transaction) (s' : KvStore)
    (h : Transaction.begin s mode = .ok (t, s')) : nextIdOf s = some t.id :=
  (begin_spec s mode t s' h).choose_spec.2.1

/-- Over any successful `beginSeq` run, ids are chained strictly increasing and
bounded below by the store's next id. -/
theorem beginSeq_cons_ok (s : KvStore) (m : Mode) (ms : List Mode) (t : Transaction)
    (s1 : KvStore) (hb : Transaction.begin s m = .ok (t, s1)) :
    beginSeq s (m :: ms) = (beginSeq s1 ms).map (fun p => (t.id :: p.1, p.2)) := by
  simp only [beginSeq, hb]

theorem beginSeq_cons_err (s : KvStore) (m : Mode) (ms : List Mode) (e : Error)
    (hb : Transaction.begin s m = .error e) : beginSeq s (m :: ms) = .error e := by
  simp only [beginSeq, hb]

/-- Over any successful `beginSeq` run, ids are chained strictly increasing and
bounded below by the store's next id. -/
theorem beginSeq_chain (ms : List Mode) : ∀ (s : KvStore) (ids : List Nat) (s'' : KvStore)
    (n : Nat), beginSeq s ms = .ok (ids, s'') → nextIdOf s = some n →
    List.Chain' (· < ·) ids ∧ ∀ i ∈ ids, n ≤ i := by
  induction ms with
  | nil =>
    intro s ids s'' n h hn
    simp only [beginSeq, Except.ok.injEq, Prod.mk.injEq] at h
    obtain ⟨hids, _⟩ := h
    subst hids
    simp
  | cons m ms ih =>
    intro s ids s'' n h hn
    cases hb : Transaction.begin s m with
    | error e =>
      rw [beginSeq_cons_err s m ms e hb] at h
      exact absurd h (by simp)
    | ok p =>
      obtain ⟨t, s1⟩ := p
      rw [beginSeq_cons_ok s m ms t s1 hb] at h
      cases hrest : beginSeq s1 ms with
      | error e => rw [hrest] at h; exact absurd h (by simp [Except.map])
      | ok q =>
        obtain ⟨tl, send⟩ := q
        rw [hrest] at h
        simp only [Except.map, Except.ok.injEq, Prod.mk.injEq] at h
        obtain ⟨hids, hsend⟩ := h
        subst hids
        have hid : t.id = n := by
          have := begin_id_eq s m t s1 hb
          rw [hn] at this
          exact (Option.some.inj this).symm
        have hnext1 : nextIdOf s1 = some (t.id + 1) := by
          obtain ⟨hn1, _⟩ := begin_writes s m t s1 hb
          simp [nextIdOf, hn1]
        obtain ⟨hch, hlb⟩ := ih s1 tl send (t.id + 1) hrest hnext1
        constructor
        · rw [List.chain'_cons']
          refine ⟨?_, hch⟩
          intro y hy
          have hmem : y ∈ tl := by
            cases tl with
            | nil => simp at hy
            | cons a l => simp at hy; subst hy; exact List.mem_cons_self _ _
          have := hlb y hmem
          omega
        · intro i hi
          rcases List.mem_cons.mp hi with h' | h'
          · omega
          · have := hlb i h'
            omega

/-- C2. For any sequence of `Transaction::begin` calls on one store, the
returned ids are strictly increasing; on a fresh store (no `TxnNext` key) the
first begin returns id 1; and every begin leaves `TxnNext = id + 1` and
`TxnActive(id) = serialize(mode)` in the store when it returns. -/
theorem c2_begin_ids_monotonic :
    (∀ (s : KvStore) (ms : List Mode) (ids : List Nat) (s'' : KvStore),
      beginSeq s ms = .ok (ids, s'') → List.Chain' (· < ·) ids)
    ∧ (∀ (s : KvStore) (mode : Mode) (t : Transaction) (s' : KvStore),
      s.get MvccKey.TxnNext.encode = none → Transaction.begin s mode = .ok (t, s') →
      t.id = 1)
    ∧ (∀ (s : KvStore) (mode : Mode) (t : Transaction) (s' : KvStore),
      Transaction.begin s mode = .ok (t, s') →
      s'.get MvccKey.TxnNext.encode = some (.vU64 (t.id + 1)) ∧
      s'.get (MvccKey.TxnActive t.id).encode = some (.vMode mode)) := by
  refine ⟨?_, ?_, ?_⟩
  · intro s ms ids s'' h
    cases ms with
    | nil =>
      simp only [beginSeq, Except.ok.injEq, Prod.mk.injEq] at h
      obtain ⟨hids, _⟩ := h
      subst hids
      simp
    | cons m ms' =>
      have hbegin : ∃ t s1, Transaction.begin s m = .ok (t, s1) := by
        cases hb : Transaction.begin s m with
        | error e =>
          rw [beginSeq_cons_err s m ms' e hb] at h
          exact absurd h (by simp)
        | ok p =>
          obtain ⟨t1, s1⟩ := p
          exact ⟨t1, s1, rfl⟩
      obtain ⟨t, s1, hb⟩ := hbegin
      have hn := begin_id_eq s m t s1 hb
      exact (beginSeq_chain (m :: ms') s ids s'' t.id h hn).1
  · intro s mode t s' hfresh h
    have := begin_id_eq s mode t s' h
    rw [nextIdOf, hfresh] at this
    exact (Option.some.inj this).symm
  · intro s mode t s' h
    exact begin_writes s mode t s' h

deriving instance DecidableEq for Except

/-- Final store of two begins (`ReadWrite` then `ReadOnly`) on a fresh store. -/
def c2Store : KvStore :=
  [([1], .vU64 3),
   ([2, 0, 0, 0, 0, 0, 0, 0, 1], .vMode .ReadWrite),
   ([2, 0, 0, 0, 0, 0, 0, 0, 2], .vMode .ReadOnly),
   ([3, 0, 0, 0, 0, 0, 0, 0, 1], .vSet []),
   ([3, 0, 0, 0, 0, 0, 0, 0, 2], .vSet [1])]

/-- Store after one `ReadWrite` begin on a fresh store. -/
def c2Store1 : KvStore :=
  [([1], .vU64 2),
   ([2, 0, 0, 0, 0, 0, 0, 0, 1], .vMode .ReadWrite),
   ([3, 0, 0, 0, 0, 0, 0, 0, 1], .vSet [])]

/-- The transaction returned by the first begin on a fresh store. -/
def c2Txn1 : Transaction := ⟨1, .ReadWrite, ⟨1, []⟩⟩

theorem c2_begin_ids_monotonic_witness :
    (beginSeq [] [Mode.ReadWrite, Mode.ReadOnly] = .ok ([1, 2], c2Store)
      ∧ List.Chain' (· < ·) [1, 2])
    ∧ (KvStore.get [] MvccKey.TxnNext.encode = none ∧ c2Txn1.id = 1)
    ∧ (KvStore.get c2Store1 MvccKey.TxnNext.encode = some (.vU64 (c2Txn1.id + 1))
      ∧ KvStore.get c2Store1 (MvccKey.TxnActive c2Txn1.id).encode
          = some (.vMode Mode.ReadWrite)) :=
  ⟨⟨by decide, c2_begin_ids_monotonic.1 [] [Mode.ReadWrite, Mode.ReadOnly] [1, 2] c2Store
      (by decide)⟩,
   ⟨by decide, c2_begin_ids_monotonic.2.1 [] Mode.ReadWrite c2Txn1 c2Store1 (by decide)
      (by decide)⟩,
   c2_begin_ids_monotonic.2.2 [] Mode.ReadWrite c2Txn1 c2Store1 (by decide)⟩

theorem encode_txnActive_bytes (id : Nat) :
    ∀ b ∈ (MvccKey.TxnActive id).encode, b < 256 := by
  intro b hb
  simp only [MvccKey.encode, List.mem_cons] at hb
  rcases hb with h | h
  · omega
  · exact beBytes_lt_bound 8 id b h

theorem encode_txnNext_bytes : ∀ b ∈ MvccKey.TxnNext.encode, b < 256 := by
  intro b hb
  simp only [MvccKey.encode, List.mem_cons, List.not_mem_nil, or_false] at hb
  omega

theorem encode_txnSnapshot_bytes (v : Nat) :
    ∀ b ∈ (MvccKey.TxnSnapshot v).encode, b < 256 := by
  intro b hb
  simp only [MvccKey.encode, List.mem_cons] at hb
  rcases hb with h | h
  · omega
  · exact beBytes_lt_bound 8 v b h

theorem txnActive_encode_inj (a b : Nat) (ha : a < 2 ^ 64) (hb : b < 2 ^ 64)
    (h : a ≠ b) : (MvccKey.TxnActive a).encode ≠ (MvccKey.TxnActive b).encode := by
  intro he
  simp only [MvccKey.encode, List.cons.injEq, true_and] at he
  exact h (beBytes_inj 8 a b (pow64_eq ▸ ha) (pow64_eq ▸ hb) he)

theorem txnActive_encode_lt_iff (a b : Nat) (ha : a < 2 ^ 64) (hb : b < 2 ^ 64) :
    (bytesLt (MvccKey.TxnActive a).encode (MvccKey.TxnActive b).encode = true ↔ a < b) := by
  show bytesLt (2 :: encode_u64 a) (2 :: encode_u64 b) = true ↔ a < b
  rw [bytesLt_cons_same]
  exact encode_u64_lt_iff a b ha hb

theorem store_bytes_set (s : KvStore) (k : List Nat) (v : MvccValue)
    (hs : ∀ e ∈ s, ∀ b ∈ e.1, b < 256) (hk : ∀ b ∈ k, b < 256) :
    ∀ e ∈ s.set k v, ∀ b ∈ e.1, b < 256 := by
  intro e he
  rcases KvStore.mem_set s k v e he with h | h
  · subst h; exact hk
  · exact hs e h

theorem store_bytes_delete (s : KvStore) (k : List Nat)
    (hs : ∀ e ∈ s, ∀ b ∈ e.1, b < 256) :
    ∀ e ∈ s.delete k, ∀ b ∈ e.1, b < 256 :=
  fun e he => hs e (KvStore.mem_delete s k e he)

/-- A byte string that decodes to `TxnActive(id)` is exactly the canonical
encoding of `TxnActive(id)`, and `id` fits a `u64`. -/
theorem decode_txnActive_canonical (k : List Nat) (id : Nat)
    (hbytes : ∀ b ∈ k, b < 256) (h : MvccKey.decode k = .ok (.TxnActive id)) :
    k = (MvccKey.TxnActive id).encode ∧ id < 2 ^ 64 := by
  cases k with
  | nil => exact absurd h (by simp [MvccKey.decode])
  | cons tag rest =>
    cases hd : MvccKey.decodeBody tag rest with
    | error e =>
      simp only [MvccKey.decode, hd] at h
      exact absurd h (by simp)
    | ok p =>
      obtain ⟨key, rem⟩ := p
      simp only [MvccKey.decode, hd] at h
      by_cases hrem : rem.isEmpty
      · rw [if_pos hrem] at h
        have hkey : key = .TxnActive id := Except.ok.inj h
        subst hkey
        have hremnil : rem = [] := by
          cases rem with
          | nil => rfl
          | cons a l => simp [List.isEmpty] at hrem
        subst hremnil
        by_cases h1 : tag = 1
        · subst h1
          simp [MvccKey.decodeBody] at hd
        by_cases h2 : tag = 2
        · subst h2
          simp only [MvccKey.decodeBody] at hd
          norm_num at hd
          cases ht : take_u64 rest with
          | error e => rw [ht] at hd; exact absurd hd (by simp [Except.map])
          | ok q =>
            obtain ⟨n, r⟩ := q
            rw [ht] at hd
            simp only [Except.map, Except.ok.injEq, Prod.mk.injEq, MvccKey.TxnActive.injEq] at hd
            obtain ⟨hn, hr⟩ := hd
            unfold take_u64 at ht
            by_cases hlen : 8 ≤ rest.length
            · rw [if_pos hlen] at ht
              simp only [Except.ok.injEq, Prod.mk.injEq] at ht
              obtain ⟨hval, hdrop⟩ := ht
              rw [hr] at hdrop
              have hlen8 : rest.length = 8 := by
                have := List.drop_eq_nil_iff.mp hdrop
                omega
              have htake : rest.take 8 = rest := List.take_of_length_le (by omega)
              rw [htake] at hval
              have hrb : ∀ b ∈ rest, b < 256 := fun b hb =>
                hbytes b (List.mem_cons_of_mem 2 hb)
              have hid : fromBe rest = id := by rw [hval, hn]
              constructor
              · show (2 : Nat) :: rest = 2 :: encode_u64 id
                congr 1
                rw [← hid]
                show rest = beBytes 8 (fromBe rest)
                rw [← hlen8]
                exact (beBytes_fromBe rest hrb).symm
              · rw [← hid, pow64_eq]
                have hl := fromBe_lt rest hrb
                rw [hlen8] at hl
                exact hl
            · rw [if_neg hlen] at ht
              exact absurd ht (by simp)
        by_cases h3 : tag = 3
        · subst h3
          simp only [MvccKey.decodeBody] at hd
          norm_num at hd
          cases ht : take_u64 rest with
          | error e => rw [ht] at hd; exact absurd hd (by simp [Except.map])
          | ok q =>
            rw [ht] at hd
            simp only [Except.map, Except.ok.injEq, Prod.mk.injEq] at hd
            exact absurd hd.1 (by simp)
        by_cases h4 : tag = 4
        · subst h4
          simp only [MvccKey.decodeBody] at hd
          norm_num at hd
          cases ht : take_u64 rest with
          | error e => rw [ht] at hd; exact absurd hd (by simp)
          | ok q =>
            rw [ht] at hd
            simp only at hd
            cases hu : take_bytes q.2 with
            | error e => rw [hu] at hd; exact absurd hd (by simp [Except.map])
            | ok w =>
              rw [hu] at hd
              simp only [Except.map, Except.ok.injEq, Prod.mk.injEq] at hd
              exact absurd hd.1 (by simp)
        by_cases h5 : tag = 5
        · subst h5
          simp only [MvccKey.decodeBody] at hd
          norm_num at hd
          cases ht : take_bytes rest with
          | error e => rw [ht] at hd; exact absurd hd (by simp [Except.map])
          | ok q =>
            rw [ht] at hd
            simp only [Except.map, Except.ok.injEq, Prod.mk.injEq] at hd
            exact absurd hd.1 (by simp)
        by_cases hff : tag = 255
        · subst hff
          simp only [MvccKey.decodeBody] at hd
          norm_num at hd
          cases ht : take_bytes rest with
          | error e => rw [ht] at hd; exact absurd hd (by simp)
          | ok q =>
            rw [ht] at hd
            simp only at hd
            cases hu : take_u64 q.2 with
            | error e => rw [hu] at hd; exact absurd hd (by simp [Except.map])
            | ok w =>
              rw [hu] at hd
              simp only [Except.map, Except.ok.injEq, Prod.mk.injEq] at hd
              exact absurd hd.1 (by simp)
        · simp only [MvccKey.decodeBody, if_neg h1, if_neg h2, if_neg h3, if_neg h4,
            if_neg h5, if_neg hff] at hd
          exact absurd hd (by simp)
      · rw [if_neg hrem] at h
        exact absurd h (by simp)

/-- Membership in the ids collected by the `Snapshot::take` scan loop. -/
theorem collectActive_mem (l : KvStore) : ∀ (ids : List Nat), collectActive l = .ok ids →
    ∀ x : Nat, (x ∈ ids ↔ ∃ e ∈ l, MvccKey.decode e.1 = .ok (.TxnActive x)) := by
  induction l with
  | nil =>
    intro ids h x
    simp only [collectActive, Except.ok.injEq] at h
    subst h
    simp
  | cons e0 rest ih =>
    intro ids h x
    obtain ⟨k, v⟩ := e0
    simp only [collectActive] at h
    cases hd : MvccKey.decode k with
    | error er => rw [hd] at h; exact absurd h (by simp)
    | ok key =>
      rw [hd] at h
      cases key with
      | TxnActive idk =>
        simp only at h
        cases hrest : collectActive rest with
        | error er => rw [hrest] at h; exact absurd h (by simp [Except.map])
        | ok ids0 =>
          rw [hrest] at h
          simp only [Except.map, Except.ok.injEq] at h
          subst h
          constructor
          · intro hx
            rcases List.mem_cons.mp hx with h' | h'
            · exact ⟨(k, v), List.mem_cons_self _ _, h' ▸ hd⟩
            · obtain ⟨e, he, hde⟩ := ((ih ids0 hrest x).mp h')
              exact ⟨e, List.mem_cons_of_mem _ he, hde⟩
          · rintro ⟨e, he, hde⟩
            rcases List.mem_cons.mp he with h' | h'
            · subst h'
              simp only at hde
              rw [hd] at hde
              have : idk = x := by
                have := Except.ok.inj hde
                cases this
                rfl
              exact this ▸ List.mem_cons_self _ _
            · exact List.mem_cons_of_mem _ ((ih ids0 hrest x).mpr ⟨e, h', hde⟩)
      | TxnNext => exact absurd h (by simp)
      | TxnSnapshot a => exact absurd h (by simp)
      | TxnUpdate a b => exact absurd h (by simp)
      | Record a b => exact absurd h (by simp)
      | Metadata a => exact absurd h (by simp)

/-- Characterization of the invisible set produced by a successful
`Snapshot::take`: exactly the ids below `version` whose `TxnActive` marker is
present in the store. -/
theorem take_invisible (s : KvStore) (version : Nat) (snap : Snapshot) (s' : KvStore)
    (hbytes : ∀ e ∈ s, ∀ b ∈ e.1, b < 256) (hv : version < 2 ^ 64)
    (h : Snapshot.take s version = .ok (snap, s')) (id : Nat) :
    id ∈ snap.invisible ↔
      (id < version ∧ (s.get (MvccKey.TxnActive id).encode).isSome = true) := by
  obtain ⟨hver, hcoll, hs'⟩ := take_ok s version snap s' h
  rw [collectActive_mem _ snap.invisible hcoll id]
  constructor
  · rintro ⟨e, he, hdec⟩
    obtain ⟨hein, hlo, hhi⟩ := (KvStore.mem_scan s _ _ e).mp he
    obtain ⟨hk, hlt⟩ := decode_txnActive_canonical e.1 id (hbytes e hein) hdec
    constructor
    · rw [hk] at hhi
      exact (txnActive_encode_lt_iff id version hlt hv).mp hhi
    · rw [KvStore.get_isSome_iff]
      refine ⟨e.2, ?_⟩
      rw [← hk]
      exact hein
  · rintro ⟨hid, hsome⟩
    obtain ⟨v, hv'⟩ := (KvStore.get_isSome_iff s _).mp hsome
    have hltv : id < 2 ^ 64 := lt_trans hid hv
    refine ⟨((MvccKey.TxnActive id).encode, v), ?_, ?_⟩
    · rw [KvStore.mem_scan]
      refine ⟨hv', ?_, ?_⟩
      · cases hb : bytesLt (MvccKey.TxnActive id).encode (MvccKey.TxnActive 0).encode
        · rfl
        · have := (txnActive_encode_lt_iff id 0 hltv (by norm_num)).mp hb
          omega
      · exact (txnActive_encode_lt_iff id version hltv hv).mpr hid
    · exact decode_encode (MvccKey.TxnActive id)
        (by simp only [MvccKey.u64Bounded, decide_eq_true_eq]; exact hltv)

/-- The version a snapshot is taken at is never in its own invisible set: the
scan range `TxnActive(0)..TxnActive(version)` is half-open. -/
theorem take_self_not_mem (s : KvStore) (version : Nat) (snap : Snapshot) (s' : KvStore)
    (hbytes : ∀ e ∈ s, ∀ b ∈ e.1, b < 256)
    (h : Snapshot.take s version = .ok (snap, s')) : version ∉ snap.invisible := by
  intro hmem
  obtain ⟨hver, hcoll, hs'⟩ := take_ok s version snap s' h
  obtain ⟨e, he, hdec⟩ := (collectActive_mem _ snap.invisible hcoll version).mp hmem
  obtain ⟨hein, hlo, hhi⟩ := (KvStore.mem_scan s _ _ e).mp he
  obtain ⟨hk, hlt⟩ := decode_txnActive_canonical e.1 version (hbytes e hein) hdec
  rw [hk, bytesLt_irrefl] at hhi
  exact Bool.false_ne_true hhi

/-- C3. `Snapshot::take(version)` returns and persists under
`TxnSnapshot(version)` the set of exactly the ids `id < version` whose
`TxnActive(id)` marker is present; consequently, for `A.id < B.id` (in a
non-snapshot mode `B`), if `A` commits before `B` begins then
`A.id ∉ B.snapshot.invisible`, while if `A` is still active when `B` begins
then `A.id ∈ B.snapshot.invisible`. -/
theorem c3_active_set_correct :
    (∀ (s : KvStore) (version : Nat) (snap : Snapshot) (s' : KvStore),
      (∀ e ∈ s, ∀ b ∈ e.1, b < 256) → version < 2 ^ 64 →
      Snapshot.take s version = .ok (snap, s') →
      snap.version = version ∧
      (∀ id, id ∈ snap.invisible ↔
        (id < version ∧ (s.get (MvccKey.TxnActive id).encode).isSome = true)) ∧
      s'.get (MvccKey.TxnSnapshot version).encode = some (.vSet snap.invisible))
    ∧ (∀ (s : KvStore) (A : Transaction) (mode : Mode) (t : Transaction) (s' : KvStore),
      (∀ e ∈ s, ∀ b ∈ e.1, b < 256) →
      Transaction.begin (Transaction.commit s A) mode = .ok (t, s') →
      mode.isSnapshotMode = false → A.id < t.id → t.id < 2 ^ 64 →
      A.id ∉ t.snapshot.invisible)
    ∧ (∀ (s : KvStore) (A_id : Nat) (mode : Mode) (t : Transaction) (s' : KvStore)
        (v : MvccValue),
      (∀ e ∈ s, ∀ b ∈ e.1, b < 256) →
      s.get (MvccKey.TxnActive A_id).encode = some v →
      Transaction.begin s mode = .ok (t, s') →
      mode.isSnapshotMode = false → A_id < t.id → t.id < 2 ^ 64 →
      A_id ∈ t.snapshot.invisible) := by
  refine ⟨?_, ?_, ?_⟩
  · intro s version snap s' hbytes hv h
    obtain ⟨hver, hcoll, hs'⟩ := take_ok s version snap s' h
    refine ⟨hver, fun id => take_invisible s version snap s' hbytes hv h id, ?_⟩
    rw [hs']
    exact KvStore.get_set_self _ _ _
  · intro s A mode t s' hbytes h hmode hlt hbound
    obtain ⟨snap0, hm, hnext, htake, _, hsnap⟩ := begin_spec _ _ _ _ h
    have hts : t.snapshot = snap0 := hsnap hmode
    rw [hts]
    intro hmem
    have hbytes2 : ∀ e ∈ ((Transaction.commit s A).set MvccKey.TxnNext.encode
        (.vU64 (t.id + 1))).set (MvccKey.TxnActive t.id).encode (.vMode mode),
        ∀ b ∈ e.1, b < 256 :=
      store_bytes_set _ _ _
        (store_bytes_set _ _ _ (store_bytes_delete _ _ hbytes) encode_txnNext_bytes)
        (encode_txnActive_bytes t.id)
    obtain ⟨hid, hsome⟩ :=
      (take_invisible _ t.id snap0 s' hbytes2 hbound htake A.id).mp hmem
    rw [KvStore.get_set_ne _ _ _ _
        (txnActive_encode_inj A.id t.id (lt_trans hlt hbound) hbound (Nat.ne_of_lt hlt)),
      KvStore.get_set_ne _ _ _ _ (encode_ne_of_tagByte (by simp [MvccKey.tagByte])),
      Transaction.commit, KvStore.get_delete_self] at hsome
    simp at hsome
  · intro s A_id mode t s' v hbytes hactive h hmode hlt hbound
    obtain ⟨snap0, hm, hnext, htake, _, hsnap⟩ := begin_spec _ _ _ _ h
    have hts : t.snapshot = snap0 := hsnap hmode
    rw [hts]
    have hbytes2 : ∀ e ∈ (s.set MvccKey.TxnNext.encode
        (.vU64 (t.id + 1))).set (MvccKey.TxnActive t.id).encode (.vMode mode),
        ∀ b ∈ e.1, b < 256 :=
      store_bytes_set _ _ _
        (store_bytes_set _ _ _ hbytes encode_txnNext_bytes)
        (encode_txnActive_bytes t.id)
    refine (take_invisible _ t.id snap0 s' hbytes2 hbound htake A_id).mpr ⟨hlt, ?_⟩
    rw [KvStore.get_set_ne _ _ _ _
        (txnActive_encode_inj A_id t.id (lt_trans hlt hbound) hbound (Nat.ne_of_lt hlt)),
      KvStore.get_set_ne _ _ _ _ (encode_ne_of_tagByte (by simp [MvccKey.tagByte])),
      hactive]
    rfl

/-- Store with one active transaction marker, `TxnActive(1)`. -/
def c3Store : KvStore := [([2, 0, 0, 0, 0, 0, 0, 0, 1], .vMode .ReadWrite)]

/-- The store after `Snapshot::take(2)` on `c3Store`. -/
def c3StoreAfter : KvStore :=
  [([2, 0, 0, 0, 0, 0, 0, 0, 1], .vMode .ReadWrite),
   ([3, 0, 0, 0, 0, 0, 0, 0, 2], .vSet [1])]

theorem c3_active_set_correct_witness :
    ((∀ e ∈ c3Store, ∀ b ∈ e.1, b < 256)
      ∧ (2 : Nat) < 2 ^ 64
      ∧ Snapshot.take c3Store 2 = .ok (⟨2, [1]⟩, c3StoreAfter))
    ∧ ((1 ∈ (⟨2, [1]⟩ : Snapshot).invisible ↔
        (1 < 2 ∧ (c3Store.get (MvccKey.TxnActive 1).encode).isSome = true))
      ∧ c3StoreAfter.get (MvccKey.TxnSnapshot 2).encode = some (.vSet [1])) :=
  ⟨⟨by decide, by decide, by decide⟩,
   ⟨(c3_active_set_correct.1 c3Store 2 ⟨2, [1]⟩ c3StoreAfter (by decide) (by decide)
      (by decide)).2.1 1,
    (c3_active_set_correct.1 c3Store 2 ⟨2, [1]⟩ c3StoreAfter (by decide) (by decide)
      (by decide)).2.2⟩⟩

/-- C10. A transaction is never invisible to itself: after a `ReadWrite` or
`ReadOnly` begin, `t.id ∉ t.snapshot.invisible`, because the snapshot scan is
over the half-open range `TxnActive(0)..TxnActive(id)`, which excludes the
transaction's own `TxnActive` marker even though it was written first. -/
theorem c10_self_not_invisible :
    ∀ (s : KvStore) (mode : Mode) (t : Transaction) (s' : KvStore),
      (∀ e ∈ s, ∀ b ∈ e.1, b < 256) →
      (mode = .ReadWrite ∨ mode = .ReadOnly) →
      Transaction.begin s mode = .ok (t, s') →
      t.id ∉ t.snapshot.invisible := by
  intro s mode t s' hbytes hmode h
  obtain ⟨snap0, hm, hnext, htake, _, hsnap⟩ := begin_spec _ _ _ _ h
  have hms : mode.isSnapshotMode = false := by
    rcases hmode with h' | h' <;> subst h' <;> rfl
  have hts : t.snapshot = snap0 := hsnap hms
  rw [hts]
  have hbytes2 : ∀ e ∈ (s.set MvccKey.TxnNext.encode
      (.vU64 (t.id + 1))).set (MvccKey.TxnActive t.id).encode (.vMode mode),
      ∀ b ∈ e.1, b < 256 :=
    store_bytes_set _ _ _
      (store_bytes_set _ _ _ hbytes encode_txnNext_bytes)
      (encode_txnActive_bytes t.id)
  exact take_self_not_mem _ t.id snap0 s' hbytes2 htake

theorem c10_self_not_invisible_witness :
    ((∀ e ∈ ([] : KvStore), ∀ b ∈ e.1, b < 256)
      ∧ (Mode.ReadWrite = Mode.ReadWrite ∨ Mode.ReadWrite = Mode.ReadOnly)
      ∧ Transaction.begin [] Mode.ReadWrite = .ok (c2Txn1, c2Store1))
    ∧ c2Txn1.id ∉ c2Txn1.snapshot.invisible :=
  ⟨⟨by decide, by decide, by decide⟩,
   c10_self_not_invisible [] Mode.ReadWrite c2Txn1 c2Store1 (by decide) (by decide)
     (by decide)⟩

theorem restore_error_ne_resume_msg (s : KvStore) (v : Nat) (e : Error) (b : String)
    (h : Snapshot.restore s v = .error e) :
    e ≠ .Value ("No active transaction " ++ b) := by
  unfold Snapshot.restore at h
  cases hg : s.get (MvccKey.TxnSnapshot v).encode with
  | none =>
    rw [hg] at h
    have he : e = .Value ("Snapshot not found for version " ++ Nat.repr v) :=
      (Except.error.inj h).symm
    subst he
    intro hc
    have hstr := Error.Value.inj hc
    have hd := congrArg String.data hstr
    simp [String.data_append] at hd
  | some w =>
    cases w with
    | vU64 n =>
      rw [hg] at h
      have he : e = .Serialization := (Except.error.inj h).symm
      subst he
      intro hc
      exact absurd hc (by simp)
    | vMode m =>
      rw [hg] at h
      have he : e = .Serialization := (Except.error.inj h).symm
      subst he
      intro hc
      exact absurd hc (by simp)
    | vSet ids =>
      rw [hg] at h
      exact absurd h (by simp)

/-- C4. `Transaction::resume(id)` fails with `Value("No active transaction {id}")`
exactly when no `TxnActive(id)` key exists; otherwise it returns a transaction
whose mode is the persisted one, restoring the snapshot keyed by `version` for
`Snapshot { version }` mode and by `id` otherwise; in particular after
`begin(mode) → T` (still active), `resume(T.id)` yields the same mode and the
same snapshot contents. -/
theorem c4_resume_fidelity :
    (∀ (s : KvStore) (id : Nat),
      (Transaction.resume s id
          = .error (.Value ("No active transaction " ++ Nat.repr id))
        ↔ s.get (MvccKey.TxnActive id).encode = none))
    ∧ (∀ (s : KvStore) (id : Nat) (t : Transaction) (m : Mode),
      s.get (MvccKey.TxnActive id).encode = some (.vMode m) →
      Transaction.resume s id = .ok t →
      t.id = id ∧ t.mode = m ∧
      (∀ version, m = .Snapshot version → Snapshot.restore s version = .ok t.snapshot) ∧
      (m.isSnapshotMode = false → Snapshot.restore s id = .ok t.snapshot))
    ∧ (∀ (s : KvStore) (mode : Mode) (t : Transaction) (s' : KvStore),
      Transaction.begin s mode = .ok (t, s') →
      ∃ t', Transaction.resume s' t.id = .ok t'
        ∧ t'.id = t.id ∧ t'.mode = t.mode ∧ t'.snapshot = t.snapshot) := by
  refine ⟨?_, ?_, ?_⟩
  · intro s id
    cases hg : s.get (MvccKey.TxnActive id).encode with
    | none => simp [Transaction.resume, hg]
    | some v =>
      simp only [reduceCtorEq, iff_false]
      cases v with
      | vU64 n => simp [Transaction.resume, hg]
      | vSet ids => simp [Transaction.resume, hg]
      | vMode m =>
        cases m with
        | ReadWrite =>
          cases hr : Snapshot.restore s id with
          | error e =>
            simp only [Transaction.resume, hg, hr]
            intro hc
            exact restore_error_ne_resume_msg s id e (Nat.repr id) hr (Except.error.inj hc)
          | ok snap => simp [Transaction.resume, hg, hr]
        | ReadOnly =>
          cases hr : Snapshot.restore s id with
          | error e =>
            simp only [Transaction.resume, hg, hr]
            intro hc
            exact restore_error_ne_resume_msg s id e (Nat.repr id) hr (Except.error.inj hc)
          | ok snap => simp [Transaction.resume, hg, hr]
        | Snapshot version =>
          cases hr : Snapshot.restore s version with
          | error e =>
            simp only [Transaction.resume, hg, hr]
            intro hc
            exact restore_error_ne_resume_msg s version e (Nat.repr id) hr
              (Except.error.inj hc)
          | ok snap => simp [Transaction.resume, hg, hr]
  · intro s id t m hget hres
    cases m with
    | Snapshot version =>
      simp only [Transaction.resume, hget] at hres
      cases hr : Snapshot.restore s version with
      | error e => rw [hr] at hres; exact absurd hres (by simp)
      | ok snap =>
        rw [hr] at hres
        simp only [Except.ok.injEq] at hres
        subst hres
        refine ⟨rfl, rfl, ?_, ?_⟩
        · intro v hv
          cases hv
          exact hr
        · intro hms
          simp [Mode.isSnapshotMode] at hms
    | ReadWrite =>
      simp only [Transaction.resume, hget] at hres
      cases hr : Snapshot.restore s id with
      | error e => rw [hr] at hres; exact absurd hres (by simp)
      | ok snap =>
        rw [hr] at hres
        simp only [Except.ok.injEq] at hres
        subst hres
        exact ⟨rfl, rfl, fun v hv => absurd hv (by simp), fun _ => rfl⟩
    | ReadOnly =>
      simp only [Transaction.resume, hget] at hres
      cases hr : Snapshot.restore s id with
      | error e => rw [hr] at hres; exact absurd hres (by simp)
      | ok snap =>
        rw [hr] at hres
        simp only [Except.ok.injEq] at hres
        subst hres
        exact ⟨rfl, rfl, fun v hv => absurd hv (by simp), fun _ => rfl⟩
  · intro s mode t s' h
    obtain ⟨snap0, hm, hnext, htake, hrest, hsnap⟩ := begin_spec _ _ _ _ h
    obtain ⟨hver0, hcoll0, hs'⟩ := take_ok _ _ _ _ htake
    obtain ⟨hn1, ha1⟩ := begin_writes s mode t s' h
    cases mode with
    | Snapshot version =>
      have hr : Snapshot.restore s' version = .ok t.snapshot := hrest version rfl
      refine ⟨⟨t.id, .Snapshot version, t.snapshot⟩, ?_, rfl, ?_, rfl⟩
      · simp only [Transaction.resume, ha1, hr]
      · rw [hm]
    | ReadWrite =>
      have hts : t.snapshot = snap0 := hsnap rfl
      have hsget : s'.get (MvccKey.TxnSnapshot t.id).encode
          = some (.vSet snap0.invisible) := by
        rw [hs']
        exact KvStore.get_set_self _ _ _
      have hr : Snapshot.restore s' t.id = .ok snap0 := by
        unfold Snapshot.restore
        rw [hsget]
        cases snap0 with
        | mk ver inv => simp only at hver0 ⊢; rw [hver0]
      refine ⟨⟨t.id, .ReadWrite, snap0⟩, ?_, rfl, ?_, ?_⟩
      · simp only [Transaction.resume, ha1, hr]
      · rw [hm]
      · rw [hts]
    | ReadOnly =>
      have hts : t.snapshot = snap0 := hsnap rfl
      have hsget : s'.get (MvccKey.TxnSnapshot t.id).encode
          = some (.vSet snap0.invisible) := by
        rw [hs']
        exact KvStore.get_set_self _ _ _
      have hr : Snapshot.restore s' t.id = .ok snap0 := by
        unfold Snapshot.restore
        rw [hsget]
        cases snap0 with
        | mk ver inv => simp only at hver0 ⊢; rw [hver0]
      refine ⟨⟨t.id, .ReadOnly, snap0⟩, ?_, rfl, ?_, ?_⟩
      · simp only [Transaction.resume, ha1, hr]
      · rw [hm]
      · rw [hts]

theorem c4_resume_fidelity_witness :
    (Transaction.resume [] 5
        = .error (.Value ("No active transaction " ++ Nat.repr 5))
      ↔ KvStore.get [] (MvccKey.TxnActive 5).encode = none)
    ∧ (KvStore.get c2Store1 (MvccKey.TxnActive 1).encode
        = some (.vMode Mode.ReadWrite)
      ∧ Transaction.resume c2Store1 1 = .ok c2Txn1
      ∧ c2Txn1.id = 1)
    ∧ (Transaction.begin [] Mode.ReadWrite = .ok (c2Txn1, c2Store1)
      ∧ ∃ t', Transaction.resume c2Store1 c2Txn1.id = .ok t'
        ∧ t'.id = c2Txn1.id ∧ t'.mode = c2Txn1.mode ∧ t'.snapshot = c2Txn1.snapshot) :=
  ⟨c4_resume_fidelity.1 [] 5,
   ⟨by decide, by decide,
    (c4_resume_fidelity.2.1 c2Store1 1 c2Txn1 Mode.ReadWrite (by decide) (by decide)).1⟩,
   ⟨by decide, c4_resume_fidelity.2.2 [] Mode.ReadWrite c2Txn1 c2Store1 (by decide)⟩⟩

/- ### SST format (`src/storage/kv/lsm_tree/sstable.rs`) -/

/-- Block meta entry: offset of a data block and its first key
(`struct BlockMeta`). -/
structure BlockMeta where
  offset : Nat
  first_key : List Nat
deriving DecidableEq

/-- Encode block metas into a buffer, appending
`offset (u32 BE) ++ first_key_len (u16 BE) ++ first_key` per entry
(`BlockMeta::encode_block_meta`). -/
def BlockMeta.encode_block_meta (block_meta : List BlockMeta) (buffer : List Nat) :
    List Nat :=
  buffer ++ block_meta.flatMap
    (fun meta => beBytes 4 meta.offset ++ beBytes 2 meta.first_key.length ++ meta.first_key)

/-- Decode block metas from a buffer (`BlockMeta::decode_block_meta`): while
bytes remain, read a u32 offset, a u16 key length, then that many key bytes. -/
def BlockMeta.decode_block_meta (buffer : List Nat) : List BlockMeta :=
  if buffer.isEmpty then []
  else
    let offset := fromBe (buffer.take 4)
    let rest := buffer.drop 4
    let first_key_len := fromBe (rest.take 2)
    let rest2 := rest.drop 2
    let first_key := rest2.take first_key_len
    { offset := offset, first_key := first_key }
      :: BlockMeta.decode_block_meta (rest2.drop first_key_len)
termination_by buffer.length
decreasing_by
  simp only [List.length_drop]
  have : buffer.length ≠ 0 := by
    intro h0
    rw [List.isEmpty_iff_length_eq_zero] at *
    simp_all
  omega

/-- `slice::partition_point` of the Rust standard library: for a slice
partitioned by `pred` (all `true` entries precede all `false` ones — the
documented precondition), it returns the number of leading entries satisfying
`pred`. -/
def partitionPoint (l : List α) (pred : α → Bool) : Nat :=
  (l.takeWhile pred).length

/-- A positional read over an in-memory byte file (`FileObject::read`):
returns exactly `len` bytes or errors. -/
def fileRead (file : List Nat) (offset len : Nat) : Except Error (List Nat) :=
  if offset + len ≤ file.length then .ok ((file.drop offset).take len)
  else .error .Storage

/-- An SST descriptor (`struct SsTable`); the block cache is external and the
file is kept as its byte contents. -/
structure SsTable where
  id : Nat
  file : List Nat
  block_metas : List BlockMeta
  block_meta_offset : Nat
deriving DecidableEq

/-- Open an SST from a file (`SsTable::open`): read the trailing u32 BE meta
offset, slice out and decode the meta block. -/
def SsTable.open (id : Nat) (file : List Nat) : Except Error SsTable :=
  match fileRead file (file.length - 4) 4 with
  | .error e => .error e
  | .ok meta_offset_raw =>
    let block_meta_offset := fromBe meta_offset_raw
    match fileRead file block_meta_offset (file.length - 4 - block_meta_offset) with
    | .error e => .error e
    | .ok meta_raw =>
      .ok { id := id, file := file,
            block_metas := BlockMeta.decode_block_meta meta_raw,
            block_meta_offset := block_meta_offset }

/-- Index of the rightmost block whose `first_key ≤ key`, or `-1`
(`SsTable::front_find_block_idx`). -/
def SsTable.front_find_block_idx (t : SsTable) (key : List Nat) : Int :=
  (partitionPoint t.block_metas (fun meta => !bytesLt key meta.first_key) : Int) - 1

/-- Number of blocks whose `first_key < key`
(`SsTable::back_find_block_idx`). -/
def SsTable.back_find_block_idx (t : SsTable) (key : List Nat) : Int :=
  (partitionPoint t.block_metas (fun meta => bytesLt meta.first_key key) : Int)

/-- Number of data blocks (`SsTable::num_of_blocks`). -/
def SsTable.num_of_blocks (t : SsTable) : Nat :=
  t.block_metas.length

/- ### Bidirectional SST iterator state and `is_valid` -/

/-- The state of a block iterator seen by `SsTableIter::is_valid`. Modelled
from the spec: the block module is external; §4.7 specifies the two cursors
(`front_index`, `back_index`, absent before first use) and the block's entry
count (`block.offsets.len()`). -/
structure BlockIter where
  front_index : Option Int
  back_index : Option Int
  offsets_len : Nat
deriving DecidableEq

/-- Modelled from the spec (§4.7): a block iterator is valid iff
`front_index + 1 < back_index`, with `-1` and `offsets.len()` standing for the
unset cursors. -/
def BlockIter.is_valid (it : BlockIter) : Bool :=
  decide (it.front_index.getD (-1) + 1 < it.back_index.getD (it.offsets_len : Int))

/-- The bidirectional SST iterator (`struct SsTableIter`): the table plus an
optional `(block_idx, block_iter)` cursor for each end. -/
structure SsTableIter where
  table : SsTable
  front_block_iter : Option (Int × BlockIter)
  back_block_iter : Option (Int × BlockIter)
deriving DecidableEq

/-- The crossing logic (`SsTableIter::is_valid`). The `expect` calls on the
block-cursor indices are modelled by the §4.7 defaults (`-1` /
`offsets.len()`); the verified claims pin both indices to be present. -/
def SsTableIter.is_valid (it : SsTableIter) : Bool :=
  match it.front_block_iter, it.back_block_iter with
  | some (front_idx, front_iter), some (back_idx, back_iter) =>
    if front_idx < back_idx then
      let f_idx := front_iter.front_index.getD (-1)
      let b_idx := back_iter.back_index.getD (back_iter.offsets_len : Int)
      decide (front_idx < back_idx - 1) ||
        (decide (f_idx < (front_iter.offsets_len : Int) - 1) || decide (b_idx > 0))
    else if back_idx < front_idx then false
    else
      let f_idx := front_iter.front_index.getD (-1)
      let b_idx := back_iter.back_index.getD (back_iter.offsets_len : Int)
      decide (f_idx < b_idx - 1)
  | some (front_idx, front_iter), none =>
    decide (0 ≤ front_idx ∧ front_idx < (it.table.num_of_blocks : Int) - 1) ||
      (decide (front_idx = (it.table.num_of_blocks : Int) - 1) && front_iter.is_valid)
  | none, some (back_idx, back_iter) =>
    decide (0 < back_idx ∧ back_idx < (it.table.num_of_blocks : Int)) ||
      (decide (0 = back_idx) && back_iter.is_valid)
  | none, none => true

/-- C1. With both cursors set (front at block `front_idx`, back at block
`back_idx`) and both block-cursor indices present, `is_valid()` is: false when
`front_idx > back_idx`; for `front_idx < back_idx`, true iff the blocks are
not adjacent or the front cursor has not returned its block's last entry or
the back cursor has not returned its block's first entry; for
`front_idx = back_idx`, true iff `front_block_cursor + 1 < back_block_cursor`
inside that one block. -/
theorem c1_sstable_iter_is_valid (it : SsTableIter) (fi bi f b : Int)
    (fIter bIter : BlockIter)
    (hf : it.front_block_iter = some (fi, fIter))
    (hb : it.back_block_iter = some (bi, bIter))
    (hfi : fIter.front_index = some f)
    (hbi : bIter.back_index = some b) :
    (bi < fi → it.is_valid = false) ∧
    (fi < bi → (it.is_valid = true ↔
      (fi + 1 < bi ∨ f < (fIter.offsets_len : Int) - 1 ∨ 0 < b))) ∧
    (fi = bi → (it.is_valid = true ↔ f + 1 < b)) := by
  refine ⟨?_, ?_, ?_⟩
  · intro hlt
    simp only [SsTableIter.is_valid, hf, hb, if_neg (by omega : ¬ fi < bi),
      if_pos hlt]
  · intro hlt
    simp only [SsTableIter.is_valid, hf, hb, if_pos hlt, hfi, hbi, Option.getD_some]
    constructor
    · intro h
      simp only [Bool.or_eq_true, decide_eq_true_eq] at h
      omega
    · intro h
      simp only [Bool.or_eq_true, decide_eq_true_eq]
      omega
  · intro heq
    simp only [SsTableIter.is_valid, hf, hb, if_neg (by omega : ¬ fi < bi),
      if_neg (by omega : ¬ bi < fi), hfi, hbi, Option.getD_some, decide_eq_true_eq]
    omega

theorem c1_sstable_iter_is_valid_witness :
    ((⟨⟨0, [], [], 0⟩, some (2, ⟨some 1, none, 3⟩), some (2, ⟨none, some 3, 4⟩)⟩ :
        SsTableIter).front_block_iter = some (2, ⟨some 1, none, 3⟩)
      ∧ ((2 : Int) = 2 →
        ((⟨⟨0, [], [], 0⟩, some (2, ⟨some 1, none, 3⟩), some (2, ⟨none, some 3, 4⟩)⟩ :
          SsTableIter).is_valid = true ↔ (1 : Int) + 1 < 3))) :=
  ⟨by decide,
   (c1_sstable_iter_is_valid
     ⟨⟨0, [], [], 0⟩, some (2, ⟨some 1, none, 3⟩), some (2, ⟨none, some 3, 4⟩)⟩
     2 2 1 3 ⟨some 1, none, 3⟩ ⟨none, some 3, 4⟩
     (by decide) (by decide) (by decide) (by decide)).2.2⟩

theorem takeWhile_length_le {α : Type} (l : List α) (p : α → Bool) :
    (l.takeWhile p).length ≤ l.length := by
  induction l with
  | nil => simp
  | cons a t ih =>
    rw [List.takeWhile_cons]
    cases p a
    · simp
    · simp
      omega

/-- On a list where the predicate holds on a downward-closed prefix (any later
`true` forces earlier `true`), the takeWhile length equals the count. -/
theorem takeWhile_length_eq_countP {α : Type} {p : α → Bool} :
    ∀ l : List α, List.Pairwise (fun a b => p b = true → p a = true) l →
    (l.takeWhile p).length = l.countP p := by
  intro l
  induction l with
  | nil => intro _; simp
  | cons a t ih =>
    intro hp
    obtain ⟨ha, ht⟩ := List.pairwise_cons.mp hp
    cases hpa : p a with
    | true =>
      simp [List.takeWhile_cons, List.countP_cons, hpa, ih ht]
    | false =>
      have hz : t.countP p = 0 := by
        rw [List.countP_eq_zero]
        intro x hx hpx
        have := ha x hx hpx
        rw [hpa] at this
        exact Bool.false_ne_true this
      simp [List.takeWhile_cons, hpa, List.countP_cons, hz]

/-- On such a list, an index is below the takeWhile length iff the predicate
holds at that index. -/
theorem takeWhile_length_index {α : Type} {p : α → Bool} :
    ∀ (l : List α), List.Pairwise (fun a b => p b = true → p a = true) l →
    ∀ (j : Nat) (hj : j < l.length),
      (j < (l.takeWhile p).length ↔ p l[j] = true) := by
  intro l
  induction l with
  | nil => intro _ j hj; simp at hj
  | cons a t ih =>
    intro hp j hj
    obtain ⟨ha, ht⟩ := List.pairwise_cons.mp hp
    cases hpa : p a with
    | true =>
      cases j with
      | zero => simp [List.takeWhile_cons, hpa]
      | succ j =>
        simp only [List.takeWhile_cons, hpa, if_true, List.length_cons,
          Nat.succ_lt_succ_iff, List.getElem_cons_succ]
        exact ih ht j (by simpa using hj)
    | false =>
      cases j with
      | zero => simp [List.takeWhile_cons, hpa]
      | succ j =>
        have htw : (a :: t).takeWhile p = [] := by
          simp [List.takeWhile_cons, hpa]
        rw [htw]
        simp only [List.length_nil, List.getElem_cons_succ]
        constructor
        · intro h; omega
        · intro h
          have hjt : j < t.length := by simpa using hj
          have hmem : t[j] ∈ t := List.getElem_mem _
          have := ha _ hmem h
          rw [hpa] at this
          exact absurd this Bool.false_ne_true

/-- C7. With the §3.5 invariant that `block_metas` is strictly sorted by
`first_key`, `front_find_block_idx(key)` is `partition_point(first_key ≤ key) - 1`:
the index of the rightmost block meta with `first_key ≤ key`, or `-1` when
there is none; and `back_find_block_idx(key)` is
`partition_point(first_key < key)`: the number of block metas with
`first_key < key` (possibly `num_of_blocks`). -/
theorem c7_find_block_idx (t : SsTable) (key : List Nat)
    (hsorted : List.Pairwise
      (fun a b => bytesLt a.first_key b.first_key = true) t.block_metas) :
    t.back_find_block_idx key
        = (t.block_metas.countP (fun m => bytesLt m.first_key key) : Int)
    ∧ t.front_find_block_idx key
        = (t.block_metas.countP (fun m => !bytesLt key m.first_key) : Int) - 1
    ∧ (t.front_find_block_idx key = -1 ↔
        ∀ m ∈ t.block_metas, bytesLt key m.first_key = true)
    ∧ (∀ (j : Nat) (hj : j < t.block_metas.length),
        ((j : Int) ≤ t.front_find_block_idx key ↔
          bytesLt key (t.block_metas[j]).first_key = false))
    ∧ (∀ (j : Nat) (hj : j < t.block_metas.length),
        ((j : Int) < t.back_find_block_idx key ↔
          bytesLt (t.block_metas[j]).first_key key = true))
    ∧ t.back_find_block_idx key ≤ (t.num_of_blocks : Int) := by
  have hpf : List.Pairwise (fun a b : BlockMeta =>
      (!bytesLt key b.first_key) = true → (!bytesLt key a.first_key) = true)
      t.block_metas := by
    refine hsorted.imp ?_
    intro a b hab hbk
    simp only [Bool.not_eq_true'] at hbk ⊢
    cases hak : bytesLt key a.first_key with
    | false => rfl
    | true =>
      have := bytesLt_trans key a.first_key b.first_key hak hab
      rw [hbk] at this
      exact absurd this Bool.false_ne_true
  have hpb : List.Pairwise (fun a b : BlockMeta =>
      bytesLt b.first_key key = true → bytesLt a.first_key key = true)
      t.block_metas := by
    refine hsorted.imp ?_
    intro a b hab hbk
    exact bytesLt_trans a.first_key b.first_key key hab hbk
  have hcf := takeWhile_length_eq_countP t.block_metas hpf
  have hcb := takeWhile_length_eq_countP t.block_metas hpb
  have hif := takeWhile_length_index t.block_metas hpf
  have hib := takeWhile_length_index t.block_metas hpb
  have hlenf := takeWhile_length_le t.block_metas
    (fun m : BlockMeta => !bytesLt key m.first_key)
  have hlenb := takeWhile_length_le t.block_metas
    (fun m : BlockMeta => bytesLt m.first_key key)
  refine ⟨?_, ?_, ?_, ?_, ?_, ?_⟩
  · simp only [SsTable.back_find_block_idx, partitionPoint, hcb]
  · simp only [SsTable.front_find_block_idx, partitionPoint, hcf]
  · simp only [SsTable.front_find_block_idx, partitionPoint]
    constructor
    · intro h
      have hlen0 : (t.block_metas.takeWhile
          (fun m => !bytesLt key m.first_key)).length = 0 := by omega
      rw [hcf, List.countP_eq_zero] at hlen0
      intro m hm
      have := hlen0 m hm
      simpa using this
    · intro h
      have hlen0 : t.block_metas.countP (fun m => !bytesLt key m.first_key) = 0 := by
        rw [List.countP_eq_zero]
        intro m hm
        simp [h m hm]
      rw [hcf, hlen0]
      simp
  · intro j hj
    simp only [SsTable.front_find_block_idx, partitionPoint]
    rw [show ((j : Int) ≤ (List.length _ : Int) - 1 ↔
        j < (List.length (t.block_metas.takeWhile
          (fun m => !bytesLt key m.first_key)))) from by omega]
    rw [hif j hj]
    simp [Bool.not_eq_true']
  · intro j hj
    simp only [SsTable.back_find_block_idx, partitionPoint]
    rw [show ((j : Int) < (List.length _ : Int) ↔
        j < (List.length (t.block_metas.takeWhile
          (fun m => bytesLt m.first_key key)))) from by omega]
    exact hib j hj
  · simp only [SsTable.back_find_block_idx, partitionPoint, SsTable.num_of_blocks]
    omega

theorem c7_find_block_idx_witness :
    (List.Pairwise (fun a b => bytesLt a.first_key b.first_key = true)
        (⟨0, [], [⟨0, [1]⟩, ⟨5, [3]⟩, ⟨9, [7]⟩], 12⟩ : SsTable).block_metas)
    ∧ ((⟨0, [], [⟨0, [1]⟩, ⟨5, [3]⟩, ⟨9, [7]⟩], 12⟩ : SsTable).back_find_block_idx [4]
        = (((⟨0, [], [⟨0, [1]⟩, ⟨5, [3]⟩, ⟨9, [7]⟩], 12⟩ : SsTable)).block_metas.countP
            (fun m => bytesLt m.first_key [4]) : Int)) :=
  ⟨by decide,
   (c7_find_block_idx ⟨0, [], [⟨0, [1]⟩, ⟨5, [3]⟩, ⟨9, [7]⟩], 12⟩ [4] (by decide)).1⟩

/- ### SST builder (`SsTableBuilder`) -/

/-- Size contribution of one entry in the block builder estimate.
Modelled from the spec: the block module is external; §4.5 only requires a
fixed-size target with per-entry growth. -/
def entrySize (e : List Nat × List Nat) : Nat := 4 + e.1.length + e.2.length

/-- The block builder. Modelled from the spec (§4.5, §4.7): an opaque sorted
container of KV entries with a `block_size` target. -/
structure BlockBuilder where
  entries : List (List Nat × List Nat)
  block_size : Nat
deriving DecidableEq

/-- Current estimated size of the block under construction. -/
def BlockBuilder.currentSize (b : BlockBuilder) : Nat :=
  b.entries.foldl (fun acc e => acc + entrySize e) 0

/-- A fresh block builder (`BlockBuilder::new`). -/
def BlockBuilder.new (block_size : Nat) : BlockBuilder := ⟨[], block_size⟩

/-- Modelled from the spec: inserting into the block builder succeeds when the
block is empty (an empty block absorbs any single pair — §4.5's precondition)
or the estimated size stays within `block_size`; otherwise the block is full. -/
def BlockBuilder.add (b : BlockBuilder) (key value : List Nat) : Option BlockBuilder :=
  if b.entries.isEmpty || decide (b.currentSize + entrySize (key, value) ≤ b.block_size)
  then some { b with entries := b.entries ++ [(key, value)] }
  else none

/-- Modelled from the spec: the encoded bytes of a finished block (opaque to
the SST layer; any concrete encoding works for the claims below). -/
def Block.encode (entries : List (List Nat × List Nat)) : List Nat :=
  entries.flatMap (fun e => beBytes 2 e.1.length ++ e.1 ++ beBytes 2 e.2.length ++ e.2)

/-- Streaming SST builder state (`struct SsTableBuilder`). -/
structure SsTableBuilder where
  meta : List BlockMeta
  data : List Nat
  cur_block_first_key : List Nat
  block_builder : BlockBuilder
  block_size : Nat
deriving DecidableEq

/-- A fresh builder (`SsTableBuilder::new`). -/
def SsTableBuilder.new (block_size : Nat) : SsTableBuilder :=
  ⟨[], [], [], BlockBuilder.new block_size, block_size⟩

/-- Finalize the current block (`SsTableBuilder::finalize_block`): encode it,
push `BlockMeta { offset = data.len(), first_key = cur_block_first_key }`, and
append the bytes; the first-key holder is not cleared (as in the source). -/
def SsTableBuilder.finalize_block (b : SsTableBuilder) : SsTableBuilder :=
  let encoded_block := Block.encode b.block_builder.entries
  { b with
    block_builder := BlockBuilder.new b.block_size,
    meta := b.meta ++ [{ offset := b.data.length, first_key := b.cur_block_first_key }],
    data := b.data ++ encoded_block }

/-- Add a key-value pair (`SsTableBuilder::add`): record the first key when the
holder is empty, insert into the current block, and on overflow finalize the
block and retry into a fresh one (the retry cannot fail; the unreachable
double-failure arm returns the finalized state, standing for the source's
`assert!`). -/
def SsTableBuilder.add (b0 : SsTableBuilder) (key value : List Nat) : SsTableBuilder :=
  let b := if b0.cur_block_first_key.isEmpty
    then { b0 with cur_block_first_key := key } else b0
  match b.block_builder.add key value with
  | some bb => { b with block_builder := bb }
  | none =>
    let b2 := b.finalize_block
    match b2.block_builder.add key value with
    | some bb2 => { b2 with block_builder := bb2, cur_block_first_key := key }
    | none => b2

/-- Length of the accumulated data buffer (`SsTableBuilder::estimated_size`). -/
def SsTableBuilder.estimated_size (b : SsTableBuilder) : Nat := b.data.length

/-- Build the SST (`SsTableBuilder::build`): finalize the residual block,
record the meta offset, append the encoded meta block and the u32 BE trailer,
and construct the descriptor from in-memory state. Returns the SST and the
file bytes written. -/
def SsTableBuilder.build (b0 : SsTableBuilder) (id : Nat) : SsTable × List Nat :=
  let b := b0.finalize_block
  let block_meta_offset := b.data.length
  let sst_data := BlockMeta.encode_block_meta b.meta b.data
  let sst_data2 := sst_data ++ beBytes 4 block_meta_offset
  ({ id := id, file := sst_data2, block_metas := b.meta,
     block_meta_offset := block_meta_offset }, sst_data2)

/-- One step of block-meta decoding on a well-formed buffer. -/
theorem decode_block_meta_step (m : BlockMeta) (restbuf : List Nat)
    (hoff : m.offset < 2 ^ 32) (hklen : m.first_key.length < 2 ^ 16) :
    BlockMeta.decode_block_meta (beBytes 4 m.offset ++ (beBytes 2 m.first_key.length
      ++ (m.first_key ++ restbuf)))
    = m :: BlockMeta.decode_block_meta restbuf := by
  have hlen4 : (beBytes 4 m.offset).length = 4 := beBytes_length 4 m.offset
  have hlen2 : (beBytes 2 m.first_key.length).length = 2 := beBytes_length 2 _
  have hoff' : m.offset < 256 ^ 4 := by
    have : (2 : Nat) ^ 32 = 256 ^ 4 := by norm_num
    omega
  have hklen' : m.first_key.length < 256 ^ 2 := by
    have : (2 : Nat) ^ 16 = 256 ^ 2 := by norm_num
    omega
  have hemp : (beBytes 4 m.offset ++ (beBytes 2 m.first_key.length
      ++ (m.first_key ++ restbuf))).isEmpty = false := by
    cases hbb : beBytes 4 m.offset with
    | nil => rw [hbb] at hlen4; simp at hlen4
    | cons x xs => simp
  rw [BlockMeta.decode_block_meta]
  rw [if_neg (show ¬ ((beBytes 4 m.offset ++ (beBytes 2 m.first_key.length
      ++ (m.first_key ++ restbuf))).isEmpty = true) from by rw [hemp]; simp)]
  simp only [List.take_left' hlen4, List.drop_left' hlen4, List.take_left' hlen2,
    List.drop_left' hlen2, fromBe_beBytes, Nat.mod_eq_of_lt hoff',
    Nat.mod_eq_of_lt hklen', List.take_left, List.drop_left]

/-- Decoding inverts encoding of the block meta list, for metas whose fields
fit the on-disk widths. -/
theorem decode_encode_block_meta :
    ∀ metas : List BlockMeta,
    (∀ m ∈ metas, m.offset < 2 ^ 32 ∧ m.first_key.length < 2 ^ 16) →
    BlockMeta.decode_block_meta (metas.flatMap
      (fun meta => beBytes 4 meta.offset ++ beBytes 2 meta.first_key.length
        ++ meta.first_key)) = metas := by
  intro metas
  induction metas with
  | nil =>
    intro _
    rw [List.flatMap_nil, BlockMeta.decode_block_meta]
    simp
  | cons m rest ih =>
    intro hb
    obtain ⟨hoff, hklen⟩ := hb m (List.mem_cons_self _ _)
    have hrest := fun x hx => hb x (List.mem_cons_of_mem _ hx)
    rw [List.flatMap_cons]
    have hassoc : (beBytes 4 m.offset ++ beBytes 2 m.first_key.length ++ m.first_key)
        ++ rest.flatMap (fun meta => beBytes 4 meta.offset
          ++ beBytes 2 meta.first_key.length ++ meta.first_key)
        = beBytes 4 m.offset ++ (beBytes 2 m.first_key.length
          ++ (m.first_key ++ rest.flatMap (fun meta => beBytes 4 meta.offset
            ++ beBytes 2 meta.first_key.length ++ meta.first_key))) := by
      simp [List.append_assoc]
    rw [hassoc, decode_block_meta_step m _ hoff hklen, ih hrest]

/-- C8. The file produced by `SsTableBuilder::build` ends with the big-endian
u32 offset at which the encoded meta block begins — which equals the total
data-block length — and reopening that file via `SsTable::open` reconstructs
the builder's in-memory `block_metas` exactly. Machine-width side conditions:
the data length fits a u32 and each meta fits its on-disk fields. -/
theorem c8_build_open_roundtrip (b : SsTableBuilder) (id : Nat)
    (hlen : b.finalize_block.data.length < 2 ^ 32)
    (hm : ∀ m ∈ b.finalize_block.meta,
      m.offset < 2 ^ 32 ∧ m.first_key.length < 2 ^ 16) :
    (b.build id).2.drop ((b.build id).2.length - 4)
        = beBytes 4 b.finalize_block.data.length
    ∧ (b.build id).1.block_meta_offset = b.finalize_block.data.length
    ∧ SsTable.open id (b.build id).2 = .ok (b.build id).1
    ∧ (b.build id).1.block_metas = b.finalize_block.meta := by
  have hbuild : b.build id =
      ({ id := id,
         file := (b.finalize_block.data ++ b.finalize_block.meta.flatMap
             (fun meta => beBytes 4 meta.offset ++ beBytes 2 meta.first_key.length
               ++ meta.first_key))
           ++ beBytes 4 b.finalize_block.data.length,
         block_metas := b.finalize_block.meta,
         block_meta_offset := b.finalize_block.data.length },
       (b.finalize_block.data ++ b.finalize_block.meta.flatMap
           (fun meta => beBytes 4 meta.offset ++ beBytes 2 meta.first_key.length
             ++ meta.first_key))
         ++ beBytes 4 b.finalize_block.data.length) := rfl
  rw [hbuild]
  have hlen4 : (beBytes 4 b.finalize_block.data.length).length = 4 :=
    beBytes_length 4 _
  have hfilelen : ((b.finalize_block.data ++ b.finalize_block.meta.flatMap
      (fun meta => beBytes 4 meta.offset ++ beBytes 2 meta.first_key.length
        ++ meta.first_key))
      ++ beBytes 4 b.finalize_block.data.length).length
      = (b.finalize_block.data ++ b.finalize_block.meta.flatMap
        (fun meta => beBytes 4 meta.offset ++ beBytes 2 meta.first_key.length
          ++ meta.first_key)).length + 4 := by
    rw [List.length_append, hlen4]
  have harith : ((b.finalize_block.data ++ b.finalize_block.meta.flatMap
      (fun meta => beBytes 4 meta.offset ++ beBytes 2 meta.first_key.length
        ++ meta.first_key))
      ++ beBytes 4 b.finalize_block.data.length).length - 4
      = (b.finalize_block.data ++ b.finalize_block.meta.flatMap
        (fun meta => beBytes 4 meta.offset ++ beBytes 2 meta.first_key.length
          ++ meta.first_key)).length := by
    rw [hfilelen]
    omega
  have hdrop : ((b.finalize_block.data ++ b.finalize_block.meta.flatMap
      (fun meta => beBytes 4 meta.offset ++ beBytes 2 meta.first_key.length
        ++ meta.first_key))
      ++ beBytes 4 b.finalize_block.data.length).drop
      ((b.finalize_block.data ++ b.finalize_block.meta.flatMap
        (fun meta => beBytes 4 meta.offset ++ beBytes 2 meta.first_key.length
          ++ meta.first_key)).length)
      = beBytes 4 b.finalize_block.data.length := List.drop_left _ _
  have hfb : fromBe (beBytes 4 b.finalize_block.data.length)
      = b.finalize_block.data.length := by
    rw [fromBe_beBytes]
    refine Nat.mod_eq_of_lt ?_
    have : (2 : Nat) ^ 32 = 256 ^ 4 := by norm_num
    omega
  have hread1 : fileRead ((b.finalize_block.data ++ b.finalize_block.meta.flatMap
      (fun meta => beBytes 4 meta.offset ++ beBytes 2 meta.first_key.length
        ++ meta.first_key))
      ++ beBytes 4 b.finalize_block.data.length)
      (((b.finalize_block.data ++ b.finalize_block.meta.flatMap
        (fun meta => beBytes 4 meta.offset ++ beBytes 2 meta.first_key.length
          ++ meta.first_key))
        ++ beBytes 4 b.finalize_block.data.length).length - 4) 4
      = .ok (beBytes 4 b.finalize_block.data.length) := by
    unfold fileRead
    rw [if_pos (by rw [harith, hfilelen])]
    rw [harith, hdrop]
    exact congrArg Except.ok (List.take_of_length_le (le_of_eq hlen4))
  have hread2 : fileRead ((b.finalize_block.data ++ b.finalize_block.meta.flatMap
      (fun meta => beBytes 4 meta.offset ++ beBytes 2 meta.first_key.length
        ++ meta.first_key))
      ++ beBytes 4 b.finalize_block.data.length)
      b.finalize_block.data.length
      (((b.finalize_block.data ++ b.finalize_block.meta.flatMap
        (fun meta => beBytes 4 meta.offset ++ beBytes 2 meta.first_key.length
          ++ meta.first_key))
        ++ beBytes 4 b.finalize_block.data.length).length - 4
        - b.finalize_block.data.length)
      = .ok (b.finalize_block.meta.flatMap
        (fun meta => beBytes 4 meta.offset ++ beBytes 2 meta.first_key.length
          ++ meta.first_key)) := by
    have hl2 : ((b.finalize_block.data ++ b.finalize_block.meta.flatMap
        (fun meta => beBytes 4 meta.offset ++ beBytes 2 meta.first_key.length
          ++ meta.first_key))
        ++ beBytes 4 b.finalize_block.data.length).length - 4
        - b.finalize_block.data.length
        = (b.finalize_block.meta.flatMap
          (fun meta => beBytes 4 meta.offset ++ beBytes 2 meta.first_key.length
            ++ meta.first_key)).length := by
      rw [hfilelen, List.length_append]
      omega
    unfold fileRead
    rw [hl2]
    rw [if_pos (by rw [hfilelen, List.length_append]; omega)]
    rw [List.append_assoc, List.drop_left, List.take_left]
  refine ⟨?_, rfl, ?_, rfl⟩
  · rw [harith, hdrop]
  · simp only [SsTable.open, hread1, hfb, hread2, decode_encode_block_meta _ hm]

theorem c8_build_open_roundtrip_witness :
    ((SsTableBuilder.new 16).finalize_block.data.length < 2 ^ 32
      ∧ (∀ m ∈ (SsTableBuilder.new 16).finalize_block.meta,
          m.offset < 2 ^ 32 ∧ m.first_key.length < 2 ^ 16))
    ∧ (SsTable.open 0 ((SsTableBuilder.new 16).build 0).2
        = .ok ((SsTableBuilder.new 16).build 0).1
      ∧ ((SsTableBuilder.new 16).build 0).1.block_metas
        = (SsTableBuilder.new 16).finalize_block.meta) :=
  ⟨⟨by decide, by decide⟩,
   ⟨(c8_build_open_roundtrip (SsTableBuilder.new 16) 0 (by decide) (by decide)).2.2.1,
    (c8_build_open_roundtrip (SsTableBuilder.new 16) 0 (by decide) (by decide)).2.2.2⟩⟩

/-- Run `SsTableBuilder::add` once per key-value pair. -/
def runAdds (b : SsTableBuilder) : List (List Nat × List Nat) → SsTableBuilder
  | [] => b
  | (k, v) :: rest => runAdds (b.add k v) rest

/-- Ghost invariant tying a builder state to the partition of the processed
pairs into finalized blocks: the metas record, per finalized block, the data
length before its bytes were appended and the first key inserted into it, and
the first-key holder mirrors the head of the current block. -/
def BuilderInv (b : SsTableBuilder) (groups : List (List (List Nat × List Nat))) : Prop :=
  b.meta.length = groups.length ∧
  b.data = (groups.map Block.encode).flatten ∧
  (∀ i, i < groups.length →
    groups[i]? ≠ some [] ∧
    b.meta[i]? = some
      { offset := ((groups.take i).map Block.encode).flatten.length,
        first_key := ((groups[i]?.getD []).head?.map Prod.fst).getD [] }) ∧
  ((b.block_builder.entries.head?.map Prod.fst).getD [] = b.cur_block_first_key) ∧
  (∀ e ∈ b.block_builder.entries, e.1 ≠ [])

theorem blockAdd_some (b : BlockBuilder) (k v : List Nat) (bb : BlockBuilder)
    (h : b.add k v = some bb) : bb = { b with entries := b.entries ++ [(k, v)] } := by
  unfold BlockBuilder.add at h
  by_cases hc : (b.entries.isEmpty || decide (b.currentSize + entrySize (k, v) ≤ b.block_size)) = true
  · rw [if_pos hc] at h
    exact (Option.some.inj h).symm
  · rw [if_neg hc] at h
    exact absurd h (by simp)

theorem add_case_empty (b0 : SsTableBuilder) (k v : List Nat)
    (hcur : b0.cur_block_first_key.isEmpty = true)
    (hent : b0.block_builder.entries = []) :
    b0.add k v
      = { b0 with
          cur_block_first_key := k
          block_builder := { b0.block_builder with entries := [(k, v)] } } := by
  unfold SsTableBuilder.add
  have hadd : b0.block_builder.add k v
      = some { b0.block_builder with entries := [(k, v)] } := by
    unfold BlockBuilder.add
    rw [if_pos (by simp [hent])]
    rw [hent]
    simp
  simp only [hcur, if_true, hadd]

theorem add_case_fits (b0 : SsTableBuilder) (k v : List Nat) (bb : BlockBuilder)
    (hcur : b0.cur_block_first_key.isEmpty = false)
    (hadd : b0.block_builder.add k v = some bb) :
    b0.add k v = { b0 with block_builder := bb } := by
  unfold SsTableBuilder.add
  simp only [hcur, Bool.false_eq_true, if_false, hadd]

theorem add_case_full (b0 : SsTableBuilder) (k v : List Nat)
    (hcur : b0.cur_block_first_key.isEmpty = false)
    (hadd : b0.block_builder.add k v = none) :
    b0.add k v
      = { meta := b0.meta
            ++ [{ offset := b0.data.length, first_key := b0.cur_block_first_key }]
          data := b0.data ++ Block.encode b0.block_builder.entries
          cur_block_first_key := k
          block_builder := { entries := [(k, v)], block_size := b0.block_size }
          block_size := b0.block_size } := by
  unfold SsTableBuilder.add
  have hretry : (BlockBuilder.new b0.block_size).add k v
      = some { entries := [(k, v)], block_size := b0.block_size } := by
    unfold BlockBuilder.add BlockBuilder.new
    rw [if_pos (by simp)]
    rfl
  simp only [hcur, Bool.false_eq_true, if_false, hadd, SsTableBuilder.finalize_block,
    hretry]

/-- The invariant is preserved by one `add` with a non-empty key, extending the
processed sequence by that pair. -/
theorem add_inv (b : SsTableBuilder) (groups : List (List (List Nat × List Nat)))
    (k v : List Nat) (hk : k ≠ []) (hinv : BuilderInv b groups) :
    ∃ groups', BuilderInv (b.add k v) groups' ∧
      groups'.flatten ++ (b.add k v).block_builder.entries
        = groups.flatten ++ (b.block_builder.entries ++ [(k, v)]) := by
  obtain ⟨hlen, hdata, hidx, hhead, hkeys⟩ := hinv
  by_cases hcur : b.cur_block_first_key.isEmpty = true
  · have hent : b.block_builder.entries = [] := by
      cases hE : b.block_builder.entries with
      | nil => rfl
      | cons e es =>
        exfalso
        rw [hE] at hhead
        simp only [List.head?_cons, Option.map_some', Option.getD_some] at hhead
        have hcur0 : b.cur_block_first_key = [] := by
          cases hcc : b.cur_block_first_key with
          | nil => rfl
          | cons x xs => rw [hcc] at hcur; simp [List.isEmpty] at hcur
        have hne := hkeys e (hE ▸ List.mem_cons_self e es)
        rw [hhead, hcur0] at hne
        exact hne rfl
    rw [add_case_empty b k v hcur hent]
    refine ⟨groups, ⟨hlen, hdata, hidx, by simp, ?_⟩, ?_⟩
    · intro e he
      simp only [List.mem_singleton] at he
      subst he
      exact hk
    · rw [hent]
      simp
  · have hcur' : b.cur_block_first_key.isEmpty = false := by
      cases hcc : b.cur_block_first_key.isEmpty
      · rfl
      · exact absurd hcc hcur
    have hentne : b.block_builder.entries ≠ [] := by
      intro hE
      rw [hE] at hhead
      simp only [List.head?_nil, Option.map_none', Option.getD_none] at hhead
      rw [← hhead] at hcur'
      simp [List.isEmpty] at hcur'
    cases hadd : b.block_builder.add k v with
    | some bb =>
      have hbb := blockAdd_some _ _ _ _ hadd
      subst hbb
      rw [add_case_fits b k v _ hcur' hadd]
      refine ⟨groups, ⟨hlen, hdata, hidx, ?_, ?_⟩, ?_⟩
      · show ((b.block_builder.entries ++ [(k, v)]).head?.map Prod.fst).getD []
          = b.cur_block_first_key
        cases hE : b.block_builder.entries with
        | nil => exact absurd hE hentne
        | cons e es =>
          rw [hE] at hhead
          simpa using hhead
      · intro e he
        rcases List.mem_append.mp he with h' | h'
        · exact hkeys e h'
        · simp only [List.mem_singleton] at h'
          subst h'
          exact hk
      · simp [List.append_assoc]
    | none =>
      rw [add_case_full b k v hcur' hadd]
      refine ⟨groups ++ [b.block_builder.entries], ⟨?_, ?_, ?_, ?_, ?_⟩, ?_⟩
      · simp [hlen]
      · simp [hdata]
      · intro i hi
        simp only [List.length_append, List.length_singleton] at hi
        by_cases hilt : i < groups.length
        · have hg : (groups ++ [b.block_builder.entries])[i]? = groups[i]? :=
            List.getElem?_append_left hilt
          have hmeta : (b.meta
              ++ [{ offset := b.data.length, first_key := b.cur_block_first_key }])[i]?
              = b.meta[i]? :=
            List.getElem?_append_left (by omega)
          have htake : (groups ++ [b.block_builder.entries]).take i = groups.take i := by
            rw [List.take_append_of_le_length (by omega)]
          obtain ⟨hne0, hmi⟩ := hidx i hilt
          refine ⟨by rw [hg]; exact hne0, ?_⟩
          rw [hmeta, hg, htake, hmi]
        · have hieq : i = groups.length := by omega
          subst hieq
          have hg : (groups ++ [b.block_builder.entries])[groups.length]?
              = some b.block_builder.entries := List.getElem?_concat_length _ _
          have hmeta : (b.meta
              ++ [{ offset := b.data.length, first_key := b.cur_block_first_key }])[groups.length]?
              = some { offset := b.data.length, first_key := b.cur_block_first_key } := by
            rw [← hlen]
            exact List.getElem?_concat_length _ _
          have htake : (groups ++ [b.block_builder.entries]).take groups.length
              = groups := List.take_left _ _
          refine ⟨?_, ?_⟩
          · rw [hg]
            simp only [ne_eq, Option.some.injEq]
            exact hentne
          · rw [hmeta, hg, htake]
            congr 2
            · rw [hdata]
            · rw [← hhead]
              simp
      · show (([(k, v)] : List (List Nat × List Nat)).head?.map Prod.fst).getD [] = k
        simp
      · intro e he
        simp only [List.mem_singleton] at he
        subst he
        exact hk
      · simp [List.append_assoc]

/-- Running a sequence of non-empty-key adds from an invariant state preserves
the invariant and partitions the added pairs. -/
theorem runAdds_inv : ∀ (kvs : List (List Nat × List Nat)) (b : SsTableBuilder)
    (groups : List (List (List Nat × List Nat))),
    (∀ e ∈ kvs, e.1 ≠ []) → BuilderInv b groups →
    ∃ groups', BuilderInv (runAdds b kvs) groups' ∧
      groups'.flatten ++ (runAdds b kvs).block_builder.entries
        = groups.flatten ++ b.block_builder.entries ++ kvs := by
  intro kvs
  induction kvs with
  | nil =>
    intro b groups _ hinv
    exact ⟨groups, hinv, by simp [runAdds]⟩
  | cons e rest ih =>
    intro b groups hks hinv
    obtain ⟨k, v⟩ := e
    have hk : k ≠ [] := hks (k, v) (List.mem_cons_self _ _)
    obtain ⟨groups1, hinv1, heq1⟩ := add_inv b groups k v hk hinv
    obtain ⟨groups', hinv', heq'⟩ := ih (b.add k v) groups1
      (fun x hx => hks x (List.mem_cons_of_mem _ hx)) hinv1
    refine ⟨groups', ?_, ?_⟩
    · show BuilderInv (runAdds b ((k, v) :: rest)) groups'
      exact hinv'
    · show (groups'.flatten ++ (runAdds b ((k, v) :: rest)).block_builder.entries) = _
      have : runAdds b ((k, v) :: rest) = runAdds (b.add k v) rest := rfl
      rw [this, heq', heq1]
      simp [List.append_assoc]

/-- C9 counterexample. With non-decreasing keys `[], [1]` and block size 0 the
second `add` overflows, finalizing a block whose only inserted entry is
`([], [7])` (its bytes are `Block.encode [([], [7])]` and its offset 0), yet
whose recorded `first_key` is `[1]` — the second key, not the first key `[]`
inserted into that block: `add` uses emptiness of `cur_block_first_key` as the
"unset" sentinel, so an empty first key is overwritten by the next key. -/
theorem c9_first_key_counterexample :
    List.Chain' (fun a b : List Nat × List Nat => bytesLt b.1 a.1 = false)
      [([], [7]), ([1], [8])]
    ∧ (runAdds (SsTableBuilder.new 0) [([], [7]), ([1], [8])]).meta
        = [{ offset := 0, first_key := [1] }]
    ∧ (runAdds (SsTableBuilder.new 0) [([], [7]), ([1], [8])]).data
        = Block.encode [([], [7])]
    ∧ Block.encode [([], [7])] ≠ Block.encode [([1], [8])] := by
  refine ⟨?_, by decide, by decide, by decide⟩
  simp only [List.chain'_cons, List.chain'_singleton, and_true]
  decide

/-- C9 (amended). For every sequence of `SsTableBuilder::add` calls with keys
in non-decreasing order, provided every key is non-empty, the processed pairs
split into the finalized blocks (plus the residual block), and each finalized
block's `BlockMeta` records offset equal to the data-buffer length before that
block's bytes were appended and `first_key` equal to the first key inserted
into that block. -/
theorem c9_builder_records_blocks (block_size : Nat)
    (kvs : List (List Nat × List Nat))
    (hkeys : ∀ e ∈ kvs, e.1 ≠ [])
    (_hsorted : List.Chain' (fun a b => bytesLt b.1 a.1 = false) kvs) :
    ∃ groups : List (List (List Nat × List Nat)),
      (runAdds (SsTableBuilder.new block_size) kvs).meta.length = groups.length ∧
      groups.flatten
          ++ (runAdds (SsTableBuilder.new block_size) kvs).block_builder.entries
        = kvs ∧
      (runAdds (SsTableBuilder.new block_size) kvs).data
        = (groups.map Block.encode).flatten ∧
      (∀ i, i < groups.length →
        groups[i]? ≠ some [] ∧
        (runAdds (SsTableBuilder.new block_size) kvs).meta[i]? = some
          { offset := ((groups.take i).map Block.encode).flatten.length,
            first_key := ((groups[i]?.getD []).head?.map Prod.fst).getD [] }) := by
  have hbase : BuilderInv (SsTableBuilder.new block_size) [] := by
    refine ⟨rfl, rfl, ?_, rfl, ?_⟩
    · intro i hi
      simp at hi
    · intro e he
      simp [SsTableBuilder.new, BlockBuilder.new] at he
  obtain ⟨groups, hinv, heq⟩ :=
    runAdds_inv kvs (SsTableBuilder.new block_size) [] hkeys hbase
  obtain ⟨hlen, hdata, hidx, _, _⟩ := hinv
  refine ⟨groups, hlen, ?_, hdata, hidx⟩
  simpa [SsTableBuilder.new, BlockBuilder.new] using heq

theorem c9_builder_records_blocks_witness :
    ((∀ e ∈ ([([1], [2]), ([3], [4])] : List (List Nat × List Nat)), e.1 ≠ [])
      ∧ List.Chain' (fun a b : List Nat × List Nat => bytesLt b.1 a.1 = false)
          [([1], [2]), ([3], [4])])
    ∧ (∃ groups : List (List (List Nat × List Nat)),
        (runAdds (SsTableBuilder.new 4) [([1], [2]), ([3], [4])]).meta.length
          = groups.length ∧
        groups.flatten
            ++ (runAdds (SsTableBuilder.new 4)
                [([1], [2]), ([3], [4])]).block_builder.entries
          = [([1], [2]), ([3], [4])] ∧
        (runAdds (SsTableBuilder.new 4) [([1], [2]), ([3], [4])]).data
          = (groups.map Block.encode).flatten ∧
        (∀ i, i < groups.length →
          groups[i]? ≠ some [] ∧
          (runAdds (SsTableBuilder.new 4) [([1], [2]), ([3], [4])]).meta[i]? = some
            { offset := ((groups.take i).map Block.encode).flatten.length,
              first_key := ((groups[i]?.getD []).head?.map Prod.fst).getD [] })) :=
  ⟨⟨by decide,
    by simp only [List.chain'_cons, List.chain'_singleton, and_true]; decide⟩,
   c9_builder_records_blocks 4 [([1], [2]), ([3], [4])] (by decide)
     (by simp only [List.chain'_cons, List.chain'_singleton, and_true]; decide)⟩
